/-
Verification of the zooxplorer snapshot parser (package `internal/snapshot`).

The Go source is shallowly embedded:
  * a file's contents become a `List Nat` of bytes (each < 256 in real inputs);
  * Go strings (byte strings) become `GoStr := List Nat`;
  * the mutable `decoder` becomes an explicit `Decoder` state (remaining
    bytes + running offset) threaded through `Except`;
  * Go pointers (`*Node`) become indices into an arena (`List Node`), so
    pointer equality is index equality;
  * the Go `map[string]*Node` becomes an association list where insertion
    prepends and lookup takes the first match (Go map overwrite semantics);
  * every distinct `fmt.Errorf` site becomes its own `DecodeError`
    constructor, carrying an offset exactly when the Go format string
    interpolates one.
-/
import Mathlib

set_option maxRecDepth 100000

namespace Zoox

/-- A Go string / byte buffer: a list of byte values. -/
abbrev GoStr := List Nat

/-- `maxStringLen` from parser.go: 16 MiB ceiling for string reads. -/
def maxStringLen : Int := 16 * 1024 * 1024

/-- `maxBufferLen` from parser.go: 256 MiB ceiling for buffer reads. -/
def maxBufferLen : Int := 256 * 1024 * 1024

/-- `snapshotMagic` from parser.go ("ZKSN"). -/
def snapshotMagic : Int := 0x5A4B534E

/-- One constructor per distinct error-producing site in the Go source.
A constructor has an offset field exactly when the corresponding
`fmt.Errorf` format string includes the byte offset.  `outOfFuel` is an
artifact of the fuel-indexed loop below and is unreachable from
`ParseFile` (the fuel passed always exceeds the number of iterations). -/
inductive DecodeError where
  | shortRead (off : Nat)
  | invalidStringLength (len : Int) (off : Nat)
  | stringTooLong (len limit : Int) (off : Nat)
  | invalidBufferLength (len : Int) (off : Nat)
  | bufferTooLong (len limit : Int) (off : Nat)
  | invalidMagic (magic : Int)
  | invalidSessionCount (count : Int)
  | invalidACLMapSize (count : Int)
  | invalidACLVectorLength (len : Int)
  | parentNotFound (parentPath path : GoStr)
  | missingRoot
  | outOfFuel
  deriving Repr, DecidableEq

/-- `Header` from parser.go. -/
structure Header where
  magic : Int
  version : Int
  dbid : Int
  deriving Repr, DecidableEq

/-- `StatPersisted` from parser.go. -/
structure StatPersisted where
  czxid : Int
  mzxid : Int
  ctime : Int
  mtime : Int
  version : Int
  cversion : Int
  aversion : Int
  ephemeralOwner : Int
  pzxid : Int
  deriving Repr, DecidableEq

/-- `Node` from parser.go; `parent` and `children` are arena indices
standing for the Go pointers. -/
structure Node where
  id : GoStr
  path : GoStr
  data : Option GoStr
  aclRef : Int
  stat : StatPersisted
  parent : Option Nat
  children : List Nat
  deriving Repr, DecidableEq

/-- `ACL` from parser.go. -/
structure ACL where
  perms : Int
  scheme : GoStr
  aclId : GoStr
  deriving Repr, DecidableEq

/-- `Tree` from parser.go; `arena`/`rootIdx` model `Root *Node`, and
`byPath` models `NodesByPath` as a prepend-insert association list. -/
structure Tree where
  header : Header
  arena : List Node
  rootIdx : Nat
  byPath : List (GoStr × Nat)
  acls : List (Int × List ACL)
  deriving Repr, DecidableEq

/-- The `decoder` struct: remaining bytes plus the running offset. -/
structure Decoder where
  bytes : List Nat
  off : Nat
  deriving Repr, DecidableEq

/-- `newDecoder`. -/
def newDecoder (bs : List Nat) : Decoder := ⟨bs, 0⟩

/-- `readN`: take exactly `n` bytes or fail with the offset-annotated
wrap error (`wrapErr` uses the offset before advancing). -/
def readN (d : Decoder) (n : Nat) : Except DecodeError (List Nat × Decoder) :=
  if n ≤ d.bytes.length then
    .ok (d.bytes.take n, ⟨d.bytes.drop n, d.off + n⟩)
  else
    .error (.shortRead d.off)

/-- Big-endian value of a byte list (each byte reduced mod 256). -/
def beUnsigned (bs : List Nat) : Nat :=
  bs.foldl (fun acc b => acc * 256 + b % 256) 0

/-- Two's-complement reading of a `w`-bit unsigned value. -/
def toSigned (w : Nat) (u : Nat) : Int :=
  if u % 2 ^ w < 2 ^ (w - 1) then ((u % 2 ^ w : Nat) : Int)
  else ((u % 2 ^ w : Nat) : Int) - 2 ^ w

/-- `ReadInt32`: 4 bytes, big-endian, two's complement. -/
def ReadInt32 (d : Decoder) : Except DecodeError (Int × Decoder) :=
  match readN d 4 with
  | .error e => .error e
  | .ok (b, d1) => .ok (toSigned 32 (beUnsigned b), d1)

/-- `ReadInt64`: 8 bytes, big-endian, two's complement. -/
def ReadInt64 (d : Decoder) : Except DecodeError (Int × Decoder) :=
  match readN d 8 with
  | .error e => .error e
  | .ok (b, d1) => .ok (toSigned 64 (beUnsigned b), d1)

/-- `ReadString`: signed 4-byte length prefix, then that many bytes. -/
def ReadString (d : Decoder) (maxLen : Int) : Except DecodeError (GoStr × Decoder) :=
  match ReadInt32 d with
  | .error e => .error e
  | .ok (l, d1) =>
    if l < 0 then .error (.invalidStringLength l (d1.off - 4))
    else if l > maxLen then .error (.stringTooLong l maxLen (d1.off - 4))
    else
      match readN d1 l.toNat with
      | .error e => .error e
      | .ok (b, d2) => .ok (b, d2)

/-- `ReadBuffer`: like `ReadString` but `-1` is the nil sentinel. -/
def ReadBuffer (d : Decoder) (maxLen : Int) : Except DecodeError (Option GoStr × Decoder) :=
  match ReadInt32 d with
  | .error e => .error e
  | .ok (l, d1) =>
    if l = -1 then .ok (none, d1)
    else if l < -1 then .error (.invalidBufferLength l (d1.off - 4))
    else if l > maxLen then .error (.bufferTooLong l maxLen (d1.off - 4))
    else
      match readN d1 l.toNat with
      | .error e => .error e
      | .ok (b, d2) => .ok (some b, d2)

/-- `parentOf` helper: index of the last `'/'` (byte 47) in a byte string. -/
def lastSlash : GoStr → Option Nat
  | [] => none
  | b :: bs =>
    match lastSlash bs with
    | some i => some (i + 1)
    | none => if b = 47 then some 0 else none

/-- `parentOf` from parser.go: substring before the last `'/'`, or the
empty string when the last `'/'` is at index ≤ 0 or absent. -/
def parentOf (path : GoStr) : GoStr :=
  match lastSlash path with
  | none => []
  | some i => if i = 0 then [] else path.take i

/-- `nodeID` from parser.go: final `'/'`-delimited segment; the root
(empty or `"/"` path) gets the fixed `"/"` identifier. -/
def nodeID (path : GoStr) : GoStr :=
  if path = [] ∨ path = [47] then [47]
  else
    match lastSlash path with
    | none => path
    | some i => path.drop (i + 1)

/-- Go map insert (`m[k] = v`): prepend, so lookup sees the newest entry. -/
def mapInsert (m : List (GoStr × Nat)) (k : GoStr) (v : Nat) : List (GoStr × Nat) :=
  (k, v) :: m

/-- Go map lookup: first (newest) matching entry. -/
def mapLookup : List (GoStr × Nat) → GoStr → Option Nat
  | [], _ => none
  | (k', v) :: rest, k => if k' = k then some v else mapLookup rest k

/-- `parseHeader`: magic, version, dbid; the magic check happens after
all three reads. -/
def parseHeader (d : Decoder) : Except DecodeError (Header × Decoder) :=
  match ReadInt32 d with
  | .error e => .error e
  | .ok (magic, d1) =>
    match ReadInt32 d1 with
    | .error e => .error e
    | .ok (version, d2) =>
      match ReadInt64 d2 with
      | .error e => .error e
      | .ok (dbid, d3) =>
        if magic ≠ snapshotMagic then .error (.invalidMagic magic)
        else .ok (⟨magic, version, dbid⟩, d3)

/-- Body of the `parseSessions` loop: skip `n` (id, timeout) pairs. -/
def skipSessions : Nat → Decoder → Except DecodeError Decoder
  | 0, d => .ok d
  | n + 1, d =>
    match ReadInt64 d with
    | .error e => .error e
    | .ok (_, d1) =>
      match ReadInt32 d1 with
      | .error e => .error e
      | .ok (_, d2) => skipSessions n d2

/-- `parseSessions` from parser.go. -/
def parseSessions (d : Decoder) : Except DecodeError Decoder :=
  match ReadInt32 d with
  | .error e => .error e
  | .ok (count, d1) =>
    if count < 0 then .error (.invalidSessionCount count)
    else skipSessions count.toNat d1

/-- Inner loop of `parseACLCache`: read `n` ACL entries. -/
def parseACLVector : Nat → List ACL → Decoder → Except DecodeError (List ACL × Decoder)
  | 0, acc, d => .ok (acc, d)
  | n + 1, acc, d =>
    match ReadInt32 d with
    | .error e => .error e
    | .ok (perms, d1) =>
      match ReadString d1 maxStringLen with
      | .error e => .error e
      | .ok (scheme, d2) =>
        match ReadString d2 maxStringLen with
        | .error e => .error e
        | .ok (aclId, d3) =>
          parseACLVector n (acc ++ [⟨perms, scheme, aclId⟩]) d3

/-- Outer loop of `parseACLCache`: read `n` (ref, vector) entries. -/
def parseACLEntries : Nat → List (Int × List ACL) → Decoder →
    Except DecodeError (List (Int × List ACL) × Decoder)
  | 0, acc, d => .ok (acc, d)
  | n + 1, acc, d =>
    match ReadInt64 d with
    | .error e => .error e
    | .ok (ref, d1) =>
      match ReadInt32 d1 with
      | .error e => .error e
      | .ok (vecLen, d2) =>
        if vecLen < 0 then .error (.invalidACLVectorLength vecLen)
        else
          match parseACLVector vecLen.toNat [] d2 with
          | .error e => .error e
          | .ok (list, d3) => parseACLEntries n ((ref, list) :: acc) d3

/-- `parseACLCache` from parser.go. -/
def parseACLCache (d : Decoder) : Except DecodeError (List (Int × List ACL) × Decoder) :=
  match ReadInt32 d with
  | .error e => .error e
  | .ok (count, d1) =>
    if count < 0 then .error (.invalidACLMapSize count)
    else parseACLEntries count.toNat [] d1

/-- `parseStatPersisted`: nine fixed-width reads. -/
def parseStatPersisted (d : Decoder) : Except DecodeError (StatPersisted × Decoder) :=
  match ReadInt64 d with
  | .error e => .error e
  | .ok (czxid, d1) =>
    match ReadInt64 d1 with
    | .error e => .error e
    | .ok (mzxid, d2) =>
      match ReadInt64 d2 with
      | .error e => .error e
      | .ok (ctime, d3) =>
        match ReadInt64 d3 with
        | .error e => .error e
        | .ok (mtime, d4) =>
          match ReadInt32 d4 with
          | .error e => .error e
          | .ok (version, d5) =>
            match ReadInt32 d5 with
            | .error e => .error e
            | .ok (cversion, d6) =>
              match ReadInt32 d6 with
              | .error e => .error e
              | .ok (aversion, d7) =>
                match ReadInt64 d7 with
                | .error e => .error e
                | .ok (ephemeralOwner, d8) =>
                  match ReadInt64 d8 with
                  | .error e => .error e
                  | .ok (pzxid, d9) =>
                    .ok (⟨czxid, mzxid, ctime, mtime, version, cversion,
                          aversion, ephemeralOwner, pzxid⟩, d9)

/-- Apply `f` to the list element at index `i` (no-op when out of range);
models in-place mutation through a `*Node`. -/
def modifyAt (f : Node → Node) : Nat → List Node → List Node
  | _, [] => []
  | 0, n :: ns => f n :: ns
  | i + 1, n :: ns => n :: modifyAt f i ns

/-- `parent.Children = append(parent.Children, node)`. -/
def appendChild (arena : List Node) (p c : Nat) : List Node :=
  modifyAt (fun nd => { nd with children := nd.children ++ [c] }) p arena

/-- `node.Parent = parent`. -/
def setParent (arena : List Node) (c p : Nat) : List Node :=
  modifyAt (fun nd => { nd with parent := some p }) c arena

/-- The `for` loop of `parseNodes`, fuel-indexed.  Each iteration reads a
record (path, payload, ACL ref, stat), allocates the node, inserts it into
the path map, and links it to its parent unless it is the root record.
`ParseFile` passes fuel exceeding the number of possible iterations, so
`outOfFuel` is unreachable from it. -/
def parseNodesLoop : Nat → List Node → List (GoStr × Nat) → Decoder →
    Except DecodeError (List Node × List (GoStr × Nat) × Decoder)
  | 0, _, _, _ => .error .outOfFuel
  | fuel + 1, arena, byPath, d =>
    match ReadString d maxStringLen with
    | .error e => .error e
    | .ok (path, d1) =>
      if path = [47] then .ok (arena, byPath, d1)
      else
        match ReadBuffer d1 maxBufferLen with
        | .error e => .error e
        | .ok (data, d2) =>
          match ReadInt64 d2 with
          | .error e => .error e
          | .ok (aclRef, d3) =>
            match parseStatPersisted d3 with
            | .error e => .error e
            | .ok (stat, d4) =>
              let idx := arena.length
              let arena1 := arena ++ [⟨nodeID path, path, data, aclRef, stat, none, []⟩]
              let byPath1 := mapInsert byPath path idx
              if path = [] then
                parseNodesLoop fuel arena1 byPath1 d4
              else
                match mapLookup byPath1 (parentOf path) with
                | none => .error (.parentNotFound (parentOf path) path)
                | some p =>
                  parseNodesLoop fuel (setParent (appendChild arena1 p idx) idx p) byPath1 d4

/-- `parseNodes` from parser.go: run the loop, require a root, then alias
`"/"` to the root in the lookup. -/
def parseNodes (d : Decoder) (header : Header) (acls : List (Int × List ACL)) :
    Except DecodeError (Tree × Decoder) :=
  match parseNodesLoop (d.bytes.length + 1) [] [] d with
  | .error e => .error e
  | .ok (arena, byPath, d1) =>
    match mapLookup byPath [] with
    | none => .error .missingRoot
    | some r => .ok (⟨header, arena, r, mapInsert byPath [47] r, acls⟩, d1)

/-- Trailer handling from `ParseFile` lines 83–90: an 8-byte read whose
failure ends the parse successfully; on success a string read is
mandatory and its failure is fatal. -/
def parseTrailer (t : Tree) (d : Decoder) : Except DecodeError Tree :=
  match ReadInt64 d with
  | .error _ => .ok t
  | .ok (_, d1) =>
    match ReadString d1 maxStringLen with
    | .error e => .error e
    | .ok _ => .ok t

/-- `ParseFile`, applied to the contents of the file (successful `os.Open`
is abstracted away): header, sessions, ACL cache, nodes, trailer, in
that fixed order. -/
def ParseFile (contents : List Nat) : Except DecodeError Tree :=
  match parseHeader (newDecoder contents) with
  | .error e => .error e
  | .ok (header, d1) =>
    match parseSessions d1 with
    | .error e => .error e
    | .ok d2 =>
      match parseACLCache d2 with
      | .error e => .error e
      | .ok (acls, d3) =>
        match parseNodes d3 header acls with
        | .error e => .error e
        | .ok (tree, d4) => parseTrailer tree d4

/-! ## Stream synthesis

Encoders for building the byte streams that the specification's testable
properties quantify over ("a synthesized well-formed stream").  They
implement the binary layout of spec §6 and are compared against the
decoder above. -/

/-- Big-endian bytes of `n`, `w` bytes wide. -/
def beBytes : Nat → Nat → List Nat
  | 0, _ => []
  | w + 1, n => beBytes w (n / 256) ++ [n % 256]

/-- Encode an `Int` as 4 big-endian two's-complement bytes. -/
def encodeInt32 (i : Int) : List Nat := beBytes 4 (i.emod (2 ^ 32)).toNat

/-- Encode an `Int` as 8 big-endian two's-complement bytes. -/
def encodeInt64 (i : Int) : List Nat := beBytes 8 (i.emod (2 ^ 64)).toNat

/-- Encode a length-prefixed string. -/
def encodeString (s : GoStr) : List Nat := encodeInt32 s.length ++ s

/-- Encode a payload buffer; `none` is the `-1` sentinel. -/
def encodeBuffer : Option GoStr → List Nat
  | none => encodeInt32 (-1)
  | some b => encodeInt32 b.length ++ b

/-- Encode the nine stat fields in their fixed order (60 bytes). -/
def encodeStat (s : StatPersisted) : List Nat :=
  encodeInt64 s.czxid ++ encodeInt64 s.mzxid ++ encodeInt64 s.ctime ++
  encodeInt64 s.mtime ++ encodeInt32 s.version ++ encodeInt32 s.cversion ++
  encodeInt32 s.aversion ++ encodeInt64 s.ephemeralOwner ++ encodeInt64 s.pzxid

/-- A node record of the stream, before encoding. -/
structure NodeRec where
  path : GoStr
  data : Option GoStr
  aclRef : Int
  stat : StatPersisted
  deriving Repr, DecidableEq

/-- An all-zero stat record, used as a `getD` default. -/
def statD : StatPersisted := ⟨0, 0, 0, 0, 0, 0, 0, 0, 0⟩

/-- Default node record for `getD`. -/
def recD : NodeRec := ⟨[], none, 0, statD⟩

/-- Default node for `getD`. -/
def nodeD : Node := ⟨[], [], none, 0, statD, none, []⟩

/-- Encode one node record: path, payload, ACL ref, stat. -/
def encodeRecord (r : NodeRec) : List Nat :=
  encodeString r.path ++ encodeBuffer r.data ++ encodeInt64 r.aclRef ++ encodeStat r.stat

/-- Encode a record list (no sentinel). -/
def encodeRecords (recs : List NodeRec) : List Nat :=
  (recs.map encodeRecord).flatten

/-- The encoded `"/"` sentinel record. -/
def sentinelBytes : List Nat := encodeString [47]

/-- Byte-level side conditions letting a path round-trip through
`ReadString` under the 16 MiB ceiling. -/
def pathOk (p : GoStr) : Prop := p.length ≤ 16777216 ∧ ∀ b ∈ p, b < 256

/-- Byte-level side conditions letting a payload round-trip through
`ReadBuffer` under the 256 MiB ceiling. -/
def dataOk : Option GoStr → Prop
  | none => True
  | some b => b.length ≤ 268435456 ∧ ∀ x ∈ b, x < 256

instance : DecidablePred pathOk := fun p => by unfold pathOk; infer_instance

instance : (q : Option GoStr) → Decidable (dataOk q) := fun q => by
  cases q <;> unfold dataOk <;> infer_instance

/-- Path of the `i`-th record. -/
def recPath (recs : List NodeRec) (i : Nat) : GoStr := (recs.getD i recD).path

/-- A well-formed node stream in the sense of spec §8: pairwise-distinct
paths, an empty-path (root) record, every non-root record preceded by a
record carrying its parent path, no record using the `"/"` sentinel path,
and byte-level encodability side conditions. -/
def WellFormed (recs : List NodeRec) : Prop :=
  (recs.map NodeRec.path).Nodup ∧
  (∃ i < recs.length, recPath recs i = []) ∧
  (∀ i < recs.length, recPath recs i ≠ [] →
    ∃ j < i, recPath recs j = parentOf (recPath recs i)) ∧
  (∀ r ∈ recs, r.path ≠ [47] ∧ pathOk r.path ∧ dataOk r.data)

instance : DecidablePred WellFormed := fun recs => by
  unfold WellFormed recPath; infer_instance

/-! ## Decoder lemmas -/

theorem readN_ok {d : Decoder} {n : Nat} (h : n ≤ d.bytes.length) :
    readN d n = .ok (d.bytes.take n, ⟨d.bytes.drop n, d.off + n⟩) := by
  simp [readN, h]

theorem readN_err {d : Decoder} {n : Nat} (h : d.bytes.length < n) :
    readN d n = .error (.shortRead d.off) := by
  simp [readN, Nat.not_le.mpr h]

theorem readN_ok_inv {d : Decoder} {n : Nat} {b : List Nat} {d' : Decoder}
    (h : readN d n = .ok (b, d')) :
    n ≤ d.bytes.length ∧ b = d.bytes.take n ∧ d' = ⟨d.bytes.drop n, d.off + n⟩ := by
  by_cases hn : n ≤ d.bytes.length
  · rw [readN_ok hn] at h
    exact ⟨hn, by injection h with h'; injection h' with h1 h2; exact h1.symm,
           by injection h with h'; injection h' with h1 h2; exact h2.symm⟩
  · rw [readN_err (Nat.not_le.mp hn)] at h
    exact absurd h (by simp)

theorem ReadInt32_ok_inv {d : Decoder} {l : Int} {d1 : Decoder}
    (h : ReadInt32 d = .ok (l, d1)) :
    4 ≤ d.bytes.length ∧ l = toSigned 32 (beUnsigned (d.bytes.take 4)) ∧
    d1 = ⟨d.bytes.drop 4, d.off + 4⟩ := by
  unfold ReadInt32 at h
  cases hr : readN d 4 with
  | error e => rw [hr] at h; exact absurd h (by simp)
  | ok p =>
    obtain ⟨hlen, hb, hd⟩ := readN_ok_inv hr
    rw [hr] at h
    injection h with h'; injection h' with h1 h2
    exact ⟨hlen, by rw [← h1, hb], by rw [← h2, hd]⟩

theorem ReadInt64_ok_inv {d : Decoder} {l : Int} {d1 : Decoder}
    (h : ReadInt64 d = .ok (l, d1)) :
    8 ≤ d.bytes.length ∧ l = toSigned 64 (beUnsigned (d.bytes.take 8)) ∧
    d1 = ⟨d.bytes.drop 8, d.off + 8⟩ := by
  unfold ReadInt64 at h
  cases hr : readN d 8 with
  | error e => rw [hr] at h; exact absurd h (by simp)
  | ok p =>
    obtain ⟨hlen, hb, hd⟩ := readN_ok_inv hr
    rw [hr] at h
    injection h with h'; injection h' with h1 h2
    exact ⟨hlen, by rw [← h1, hb], by rw [← h2, hd]⟩

/-! ## Arithmetic of the big-endian encoders -/

theorem beBytes_length (w n : Nat) : (beBytes w n).length = w := by
  induction w generalizing n with
  | zero => rfl
  | succ w ih => simp [beBytes, ih]

theorem beUnsigned_append_single (xs : List Nat) (b : Nat) :
    beUnsigned (xs ++ [b]) = beUnsigned xs * 256 + b % 256 := by
  unfold beUnsigned
  rw [List.foldl_append]
  rfl

theorem beUnsigned_beBytes (w n : Nat) : beUnsigned (beBytes w n) = n % 2 ^ (8 * w) := by
  induction w generalizing n with
  | zero => simp [beBytes, beUnsigned, Nat.mod_one]
  | succ w ih =>
    rw [beBytes, beUnsigned_append_single, ih]
    have h256 : (2 : Nat) ^ (8 * (w + 1)) = 256 * 2 ^ (8 * w) := by ring
    rw [h256, Nat.mod_mul]
    omega

theorem toSigned_32_small {u : Nat} (h : u < 2 ^ 31) : toSigned 32 u = (u : Int) := by
  unfold toSigned
  have h1 : u % 2 ^ 32 = u := Nat.mod_eq_of_lt (by omega)
  rw [h1]
  have h' : u < 2 ^ (32 - 1) := by norm_num at h ⊢; exact h
  rw [if_pos h']

theorem decode_encodeInt32 {i : Int} (h1 : -(2 ^ 31) ≤ i) (h2 : i < 2 ^ 31) :
    toSigned 32 (beUnsigned (encodeInt32 i)) = i := by
  unfold encodeInt32
  rw [beUnsigned_beBytes]
  have hlt : i.emod (2 ^ 32) < 2 ^ 32 := Int.emod_lt_of_pos i (by norm_num)
  have hge : 0 ≤ i.emod (2 ^ 32) := Int.emod_nonneg i (by norm_num)
  have hmod : ((i.emod (2 ^ 32)).toNat : Int) = i.emod (2 ^ 32) := Int.toNat_of_nonneg hge
  have hu : (i.emod (2 ^ 32)).toNat % 2 ^ (8 * 4) = (i.emod (2 ^ 32)).toNat := by
    apply Nat.mod_eq_of_lt
    have : ((i.emod (2 ^ 32)).toNat : Int) < 2 ^ 32 := by rw [hmod]; exact hlt
    exact_mod_cast this
  rw [hu]
  unfold toSigned
  have hnn : (i.emod (2 ^ 32)).toNat % 2 ^ 32 = (i.emod (2 ^ 32)).toNat := by
    apply Nat.mod_eq_of_lt
    have : ((i.emod (2 ^ 32)).toNat : Int) < 2 ^ 32 := by rw [hmod]; exact hlt
    exact_mod_cast this
  rw [hnn]
  by_cases hpos : 0 ≤ i
  · have hieq : i.emod (2 ^ 32) = i := Int.emod_eq_of_lt hpos (by omega)
    have hsm : (i.emod (2 ^ 32)).toNat < 2 ^ 31 := by omega
    simp only [if_pos hsm]
    omega
  · have hieq : i.emod (2 ^ 32) = i + 2 ^ 32 := by
      have hmm : (i + 2 ^ 32).emod (2 ^ 32) = i.emod (2 ^ 32) := by
        conv_lhs => rw [show i + 2 ^ 32 = i + 2 ^ 32 * 1 by ring]
        exact Int.add_mul_emod_self_left i (2 ^ 32) 1
      rw [← hmm]
      exact Int.emod_eq_of_lt (by omega) (by omega)
    have hsm : ¬ (i.emod (2 ^ 32)).toNat < 2 ^ 31 := by omega
    simp only [if_neg hsm]
    omega

theorem encodeInt32_length (i : Int) : (encodeInt32 i).length = 4 := by
  unfold encodeInt32; exact beBytes_length 4 _

theorem encodeInt64_length (i : Int) : (encodeInt64 i).length = 8 := by
  unfold encodeInt64; exact beBytes_length 8 _

theorem take_append_len {α : Type} {l1 l2 : List α} {n : Nat} (h : l1.length = n) :
    (l1 ++ l2).take n = l1 := by
  subst h; exact List.take_left l1 l2

theorem drop_append_len {α : Type} {l1 l2 : List α} {n : Nat} (h : l1.length = n) :
    (l1 ++ l2).drop n = l2 := by
  subst h; exact List.drop_left l1 l2

/-! ## Round trips: decoder applied to encoder output -/

theorem ReadInt32_raw (i : Int) (rest : List Nat) (off : Nat) :
    ReadInt32 ⟨encodeInt32 i ++ rest, off⟩ =
      .ok (toSigned 32 (beUnsigned (encodeInt32 i)), ⟨rest, off + 4⟩) := by
  unfold ReadInt32
  rw [readN_ok (by simp [encodeInt32_length])]
  simp [take_append_len (encodeInt32_length i), drop_append_len (encodeInt32_length i)]

theorem ReadInt64_raw (i : Int) (rest : List Nat) (off : Nat) :
    ReadInt64 ⟨encodeInt64 i ++ rest, off⟩ =
      .ok (toSigned 64 (beUnsigned (encodeInt64 i)), ⟨rest, off + 8⟩) := by
  unfold ReadInt64
  rw [readN_ok (by simp [encodeInt64_length])]
  simp [take_append_len (encodeInt64_length i), drop_append_len (encodeInt64_length i)]

theorem ReadInt32_encode {i : Int} (rest : List Nat) (off : Nat)
    (h1 : -(2 ^ 31) ≤ i) (h2 : i < 2 ^ 31) :
    ReadInt32 ⟨encodeInt32 i ++ rest, off⟩ = .ok (i, ⟨rest, off + 4⟩) := by
  rw [ReadInt32_raw, decode_encodeInt32 h1 h2]

theorem ReadString_encode {s : GoStr} (rest : List Nat) (off : Nat)
    (h : s.length ≤ 16777216) :
    ReadString ⟨encodeString s ++ rest, off⟩ maxStringLen =
      .ok (s, ⟨rest, off + 4 + s.length⟩) := by
  have hnn : ¬ ((s.length : Int) < 0) := by omega
  have hml : ¬ ((s.length : Int) > maxStringLen) := by
    unfold maxStringLen; omega
  have hsplit : encodeString s ++ rest = encodeInt32 (s.length : Int) ++ (s ++ rest) := by
    simp [encodeString]
  have h32 := ReadInt32_encode (i := (s.length : Int)) (s ++ rest) off (by omega) (by omega)
  have hrn := readN_ok (d := ⟨s ++ rest, off + 4⟩) (n := s.length) (by simp)
  simp only [ReadString, hsplit, h32, if_neg hnn, if_neg hml, Int.toNat_natCast, hrn,
    take_append_len rfl, drop_append_len rfl]

theorem ReadBuffer_encode {data : Option GoStr} (rest : List Nat) (off : Nat)
    (h : dataOk data) :
    ReadBuffer ⟨encodeBuffer data ++ rest, off⟩ maxBufferLen =
      .ok (data, ⟨rest, off + (encodeBuffer data).length⟩) := by
  cases data with
  | none =>
    have h32 := ReadInt32_encode (i := (-1 : Int)) rest off (by omega) (by omega)
    simp [ReadBuffer, encodeBuffer, h32, encodeInt32_length]
  | some b =>
    obtain ⟨hlen, -⟩ := h
    have h1 : ¬ ((b.length : Int) = -1) := by omega
    have h2 : ¬ ((b.length : Int) < -1) := by omega
    have h3 : ¬ ((b.length : Int) > maxBufferLen) := by unfold maxBufferLen; omega
    have hsplit : encodeBuffer (some b) ++ rest = encodeInt32 (b.length : Int) ++ (b ++ rest) := by
      simp [encodeBuffer]
    have h32 := ReadInt32_encode (i := (b.length : Int)) (b ++ rest) off (by omega) (by omega)
    have hrn := readN_ok (d := ⟨b ++ rest, off + 4⟩) (n := b.length) (by simp)
    have hblen : (encodeBuffer (some b)).length = 4 + b.length := by
      simp [encodeBuffer, encodeInt32_length]
    simp only [ReadBuffer, hsplit, h32, if_neg h1, if_neg h2, if_neg h3,
      Int.toNat_natCast, hrn, take_append_len rfl, drop_append_len rfl, hblen]
    rw [Nat.add_assoc]

theorem parseStatPersisted_encode (s : StatPersisted) (rest : List Nat) (off : Nat) :
    ∃ s', parseStatPersisted ⟨encodeStat s ++ rest, off⟩ = .ok (s', ⟨rest, off + 60⟩) := by
  unfold parseStatPersisted encodeStat
  simp only [List.append_assoc, ReadInt64_raw, ReadInt32_raw]
  refine ⟨⟨toSigned 64 (beUnsigned (encodeInt64 s.czxid)),
    toSigned 64 (beUnsigned (encodeInt64 s.mzxid)),
    toSigned 64 (beUnsigned (encodeInt64 s.ctime)),
    toSigned 64 (beUnsigned (encodeInt64 s.mtime)),
    toSigned 32 (beUnsigned (encodeInt32 s.version)),
    toSigned 32 (beUnsigned (encodeInt32 s.cversion)),
    toSigned 32 (beUnsigned (encodeInt32 s.aversion)),
    toSigned 64 (beUnsigned (encodeInt64 s.ephemeralOwner)),
    toSigned 64 (beUnsigned (encodeInt64 s.pzxid))⟩, ?_⟩
  norm_num

theorem encodeStat_length (s : StatPersisted) : (encodeStat s).length = 60 := by
  simp [encodeStat, encodeInt64_length, encodeInt32_length]

theorem encodeRecord_step (r : NodeRec) (tail : List Nat) (off : Nat)
    (hp : pathOk r.path) (hd : dataOk r.data) :
    ∃ aclRef stat,
      (ReadString ⟨encodeRecord r ++ tail, off⟩ maxStringLen =
        .ok (r.path, ⟨encodeBuffer r.data ++ encodeInt64 r.aclRef ++ encodeStat r.stat ++ tail,
              off + 4 + r.path.length⟩)) ∧
      (ReadBuffer ⟨encodeBuffer r.data ++ encodeInt64 r.aclRef ++ encodeStat r.stat ++ tail,
          off + 4 + r.path.length⟩ maxBufferLen =
        .ok (r.data, ⟨encodeInt64 r.aclRef ++ encodeStat r.stat ++ tail,
              off + 4 + r.path.length + (encodeBuffer r.data).length⟩)) ∧
      (ReadInt64 ⟨encodeInt64 r.aclRef ++ encodeStat r.stat ++ tail,
          off + 4 + r.path.length + (encodeBuffer r.data).length⟩ =
        .ok (aclRef, ⟨encodeStat r.stat ++ tail,
              off + 4 + r.path.length + (encodeBuffer r.data).length + 8⟩)) ∧
      (parseStatPersisted ⟨encodeStat r.stat ++ tail,
          off + 4 + r.path.length + (encodeBuffer r.data).length + 8⟩ =
        .ok (stat, ⟨tail, off + 4 + r.path.length + (encodeBuffer r.data).length + 8 + 60⟩)) := by
  obtain ⟨s', hs⟩ := parseStatPersisted_encode r.stat tail
    (off + 4 + r.path.length + (encodeBuffer r.data).length + 8)
  refine ⟨toSigned 64 (beUnsigned (encodeInt64 r.aclRef)), s', ?_, ?_, ?_, hs⟩
  · have : encodeRecord r ++ tail =
        encodeString r.path ++ (encodeBuffer r.data ++ encodeInt64 r.aclRef ++ encodeStat r.stat ++ tail) := by
      simp [encodeRecord]
    rw [this, ReadString_encode _ _ hp.1]
  · rw [show encodeBuffer r.data ++ encodeInt64 r.aclRef ++ encodeStat r.stat ++ tail =
        encodeBuffer r.data ++ (encodeInt64 r.aclRef ++ encodeStat r.stat ++ tail) by simp,
      ReadBuffer_encode _ _ hd]
  · rw [show encodeInt64 r.aclRef ++ encodeStat r.stat ++ tail =
        encodeInt64 r.aclRef ++ (encodeStat r.stat ++ tail) by simp,
      ReadInt64_raw]

/-! ## Structural lemmas about paths and the path map -/

theorem lastSlash_lt {p : GoStr} {i : Nat} (h : lastSlash p = some i) : i < p.length := by
  induction p generalizing i with
  | nil => simp [lastSlash] at h
  | cons b bs ih =>
    unfold lastSlash at h
    cases hls : lastSlash bs with
    | some j =>
      rw [hls] at h
      injection h with h'
      have := ih hls
      simp [← h']
      omega
    | none =>
      rw [hls] at h
      by_cases hb : b = 47
      · rw [if_pos hb] at h
        injection h with h'
        simp [← h']
      · rw [if_neg hb] at h
        exact absurd h (by simp)

theorem parentOf_length_lt {p : GoStr} (hp : p ≠ []) :
    (parentOf p).length < p.length := by
  unfold parentOf
  cases hls : lastSlash p with
  | none =>
    simp only [List.length_nil]
    exact List.length_pos.mpr hp
  | some i =>
    by_cases hi : i = 0
    · simp only [if_pos hi, List.length_nil]
      exact List.length_pos.mpr hp
    · simp only [if_neg hi, List.length_take]
      have := lastSlash_lt hls
      omega

theorem parentOf_ne {p : GoStr} (hp : p ≠ []) : parentOf p ≠ p := by
  intro h
  have := parentOf_length_lt hp
  rw [h] at this
  omega

theorem mapLookup_insert_self (m : List (GoStr × Nat)) (k : GoStr) (v : Nat) :
    mapLookup (mapInsert m k v) k = some v := by
  simp [mapInsert, mapLookup]

theorem mapLookup_insert_ne {k p : GoStr} (m : List (GoStr × Nat)) (v : Nat)
    (h : p ≠ k) : mapLookup (mapInsert m p v) k = mapLookup m k := by
  simp [mapInsert, mapLookup, h]

/-! ## Pipeline inversion lemmas -/

theorem parseNodes_ok_inv {d : Decoder} {header : Header} {acls : List (Int × List ACL)}
    {t : Tree} {d' : Decoder} (h : parseNodes d header acls = .ok (t, d')) :
    ∃ arena byPath r,
      parseNodesLoop (d.bytes.length + 1) [] [] d = .ok (arena, byPath, d') ∧
      mapLookup byPath [] = some r ∧
      t = ⟨header, arena, r, mapInsert byPath [47] r, acls⟩ := by
  unfold parseNodes at h
  cases hl : parseNodesLoop (d.bytes.length + 1) [] [] d with
  | error e => simp [hl] at h
  | ok res =>
    obtain ⟨arena, byPath, d1⟩ := res
    simp only [hl] at h
    cases hr : mapLookup byPath [] with
    | none => simp [hr] at h
    | some r =>
      simp only [hr, Except.ok.injEq, Prod.mk.injEq] at h
      obtain ⟨h1, h2⟩ := h
      exact ⟨arena, byPath, r, by rw [h2], hr, h1.symm⟩

theorem parseTrailer_ok_inv {t t' : Tree} {d : Decoder}
    (h : parseTrailer t d = .ok t') : t' = t := by
  unfold parseTrailer at h
  cases h64 : ReadInt64 d with
  | error e => simp only [h64, Except.ok.injEq] at h; exact h.symm
  | ok p =>
    obtain ⟨c, d1⟩ := p
    simp only [h64] at h
    cases hs : ReadString d1 maxStringLen with
    | error e => simp [hs] at h
    | ok q => simp only [hs, Except.ok.injEq] at h; exact h.symm

theorem ParseFile_ok_inv {bs : List Nat} {t : Tree} (h : ParseFile bs = .ok t) :
    ∃ header d1 d2 acls d3 d4,
      parseHeader (newDecoder bs) = .ok (header, d1) ∧
      parseSessions d1 = .ok d2 ∧
      parseACLCache d2 = .ok (acls, d3) ∧
      parseNodes d3 header acls = .ok (t, d4) := by
  unfold ParseFile at h
  cases hh : parseHeader (newDecoder bs) with
  | error e => simp [hh] at h
  | ok ph =>
    obtain ⟨header, d1⟩ := ph
    simp only [hh] at h
    cases hs : parseSessions d1 with
    | error e => simp [hs] at h
    | ok d2 =>
      simp only [hs] at h
      cases ha : parseACLCache d2 with
      | error e => simp [ha] at h
      | ok pa =>
        obtain ⟨acls, d3⟩ := pa
        simp only [ha] at h
        cases hn : parseNodes d3 header acls with
        | error e => simp [hn] at h
        | ok pn =>
          obtain ⟨tree, d4⟩ := pn
          simp only [hn] at h
          have := parseTrailer_ok_inv h
          subst this
          exact ⟨header, d1, d2, acls, d3, d4, rfl, hs, ha, hn⟩

/-! ## Shared concrete demo snapshot -/

/-- Synthesize a whole snapshot file: valid header (version 0, dbid 0),
zero sessions, empty ACL cache, the given node records, the sentinel,
and an arbitrary trailer. -/
def mkSnapshot (recs : List NodeRec) (trailer : List Nat) : List Nat :=
  encodeInt32 snapshotMagic ++ encodeInt32 0 ++ encodeInt64 0 ++
  encodeInt32 0 ++ encodeInt32 0 ++ encodeRecords recs ++ sentinelBytes ++ trailer

/-- A lone root record: empty path, nil payload, unrestricted ACL ref. -/
def rootRec0 : NodeRec := ⟨[], none, -1, statD⟩

/-- The tree produced by parsing `mkSnapshot [rootRec0] _`. -/
def demoTree : Tree :=
  ⟨⟨snapshotMagic, 0, 0⟩, [⟨[47], [], none, -1, statD, none, []⟩], 0,
   [([47], 0), ([], 0)], []⟩

/-- Whether the error's Go message carries the byte offset: true exactly
for the decoder-level errors (`wrapErr`, string/buffer length checks),
whose `fmt.Errorf` strings include "at offset %d". -/
def errHasOffset : DecodeError → Bool
  | .shortRead _ => true
  | .invalidStringLength _ _ => true
  | .stringTooLong _ _ _ => true
  | .invalidBufferLength _ _ => true
  | .bufferTooLong _ _ _ => true
  | .invalidMagic _ => false
  | .invalidSessionCount _ => false
  | .invalidACLMapSize _ => false
  | .invalidACLVectorLength _ => false
  | .parentNotFound _ _ => false
  | .missingRoot => false
  | .outOfFuel => true

/-! ## Claims -/

/-- Claim C1: `ParseFile` is all-or-nothing — for every input it returns
either a tree with no error or an error with no tree, never both and
never a partial tree. -/
theorem c1_parse_all_or_nothing (bs : List Nat) :
    (∃ t, ParseFile bs = .ok t ∧ ∀ e, ParseFile bs ≠ .error e) ∨
    (∃ e, ParseFile bs = .error e ∧ ∀ t, ParseFile bs ≠ .ok t) := by
  cases hp : ParseFile bs with
  | ok t => exact Or.inl ⟨t, rfl, by simp⟩
  | error e => exact Or.inr ⟨e, rfl, by simp⟩

/-- Claim C5: in every successfully parsed tree the lookup contains both
the empty path and `"/"`, and both map to the same arena index (the model
of pointer equality), which is the tree's root. -/
theorem c5_root_alias {bs : List Nat} {t : Tree} (h : ParseFile bs = .ok t) :
    mapLookup t.byPath [] = some t.rootIdx ∧
    mapLookup t.byPath [47] = some t.rootIdx := by
  obtain ⟨header, d1, d2, acls, d3, d4, hh, hs, ha, hn⟩ := ParseFile_ok_inv h
  obtain ⟨arena, byPath, r, hl, hr, ht⟩ := parseNodes_ok_inv hn
  subst ht
  refine ⟨?_, mapLookup_insert_self byPath [47] r⟩
  rw [show (Tree.mk header arena r (mapInsert byPath [47] r) acls).byPath =
      mapInsert byPath [47] r from rfl,
    mapLookup_insert_ne byPath r (by decide)]
  exact hr

/-- Witness for C5 at a concrete one-record snapshot. -/
theorem c5_root_alias_witness :
    mapLookup demoTree.byPath [] = some demoTree.rootIdx ∧
    mapLookup demoTree.byPath [47] = some demoTree.rootIdx :=
  c5_root_alias (by rfl : ParseFile (mkSnapshot [rootRec0] []) = .ok demoTree)

/-- Claim C6 counterexample: a snapshot whose first four bytes are zero
fails with the bad-magic error, and that error carries no byte offset —
refuting "every error is annotated with the byte offset". -/
theorem c6_counterexample :
    ParseFile (List.replicate 16 0) = .error (.invalidMagic 0) ∧
    errHasOffset (.invalidMagic 0) = false :=
  ⟨by rfl, rfl⟩

/-- Claim C6 amended: among errors returned by `ParseFile`, exactly the
decoder-level read and length-validation errors are annotated with the
byte offset; the bad-magic, negative-count, missing-parent and
missing-root errors carry no offset. -/
theorem c6_offset_annotation (bs : List Nat) (e : DecodeError)
    (h : ParseFile bs = .error e) :
    errHasOffset e = false ↔
      ((∃ m, e = .invalidMagic m) ∨ (∃ c, e = .invalidSessionCount c) ∨
       (∃ c, e = .invalidACLMapSize c) ∨ (∃ l, e = .invalidACLVectorLength l) ∨
       (∃ pp p, e = .parentNotFound pp p) ∨ e = .missingRoot) := by
  cases e <;> simp [errHasOffset]

/-- Witness for the amended C6 at the bad-magic input. -/
theorem c6_offset_annotation_witness :
    errHasOffset (.invalidMagic 0) = false ↔
      ((∃ m, DecodeError.invalidMagic 0 = .invalidMagic m) ∨
       (∃ c, DecodeError.invalidMagic 0 = .invalidSessionCount c) ∨
       (∃ c, DecodeError.invalidMagic 0 = .invalidACLMapSize c) ∨
       (∃ l, DecodeError.invalidMagic 0 = .invalidACLVectorLength l) ∨
       (∃ pp p, DecodeError.invalidMagic 0 = .parentNotFound pp p) ∨
       DecodeError.invalidMagic 0 = .missingRoot) :=
  c6_offset_annotation (List.replicate 16 0) (.invalidMagic 0) (by rfl)

/-- Claim C7: a string read fails on a negative length prefix, on a
prefix above the 16 MiB ceiling, and on a short stream; otherwise it
returns exactly `l` bytes and the offset advances by `4 + l`. -/
theorem c7_string_read (d : Decoder) (l : Int) (d1 : Decoder)
    (h : ReadInt32 d = .ok (l, d1)) :
    (l < 0 → ReadString d maxStringLen = .error (.invalidStringLength l d.off)) ∧
    (l > maxStringLen →
      ReadString d maxStringLen = .error (.stringTooLong l maxStringLen d.off)) ∧
    (0 ≤ l → l ≤ maxStringLen → d1.bytes.length < l.toNat →
      ReadString d maxStringLen = .error (.shortRead (d.off + 4))) ∧
    (0 ≤ l → l ≤ maxStringLen → l.toNat ≤ d1.bytes.length →
      ReadString d maxStringLen =
        .ok (d1.bytes.take l.toNat, ⟨d1.bytes.drop l.toNat, d.off + 4 + l.toNat⟩)) := by
  obtain ⟨hlen, hl, hd1⟩ := ReadInt32_ok_inv h
  subst hd1
  refine ⟨?_, ?_, ?_, ?_⟩
  · intro hlt
    simp only [ReadString, h, if_pos hlt, Nat.add_sub_cancel]
  · intro hgt
    have hnn : ¬ l < 0 := by unfold maxStringLen at hgt; omega
    simp only [ReadString, h, if_neg hnn, if_pos hgt, Nat.add_sub_cancel]
  · intro hge hle hshort
    have hnn : ¬ l < 0 := by omega
    have hng : ¬ l > maxStringLen := by omega
    have hrn := readN_err (d := ⟨d.bytes.drop 4, d.off + 4⟩) (n := l.toNat) hshort
    simp only [ReadString, h, if_neg hnn, if_neg hng, hrn]
  · intro hge hle hok
    have hnn : ¬ l < 0 := by omega
    have hng : ¬ l > maxStringLen := by omega
    have hrn := readN_ok (d := ⟨d.bytes.drop 4, d.off + 4⟩) (n := l.toNat) hok
    simp only [ReadString, h, if_neg hnn, if_neg hng, hrn]

/-- Witness for C7: a 2-byte string read out of a 6-byte stream. -/
theorem c7_string_read_witness :
    ReadString ⟨[0, 0, 0, 2, 65, 66], 0⟩ maxStringLen = .ok ([65, 66], ⟨[], 6⟩) :=
  (c7_string_read ⟨[0, 0, 0, 2, 65, 66], 0⟩ 2 ⟨[65, 66], 4⟩ (by rfl)).2.2.2
    (by decide) (by decide) (by decide)

/-- A root record with a present-but-empty payload. -/
def rootRecEmptyData : NodeRec := ⟨[], some [], -1, statD⟩

/-- The tree produced by parsing `mkSnapshot [rootRecEmptyData] _`. -/
def demoTreeEmptyData : Tree :=
  ⟨⟨snapshotMagic, 0, 0⟩, [⟨[47], [], some [], -1, statD, none, []⟩], 0,
   [([47], 0), ([], 0)], []⟩

/-- Claim C4: a buffer read maps length −1 to the distinguished nil
payload, length 0 to a present empty payload, rejects lengths below −1
and above the 256 MiB ceiling, and otherwise returns exactly `l` bytes;
parsed trees keep nil and empty payloads distinguishable in `Node.data`. -/
theorem c4_buffer_read :
    (∀ (d : Decoder) (l : Int) (d1 : Decoder), ReadInt32 d = .ok (l, d1) →
      (l = -1 → ReadBuffer d maxBufferLen = .ok (none, d1)) ∧
      (l = 0 → ReadBuffer d maxBufferLen = .ok (some [], d1)) ∧
      (l < -1 → ReadBuffer d maxBufferLen = .error (.invalidBufferLength l d.off)) ∧
      (l > maxBufferLen →
        ReadBuffer d maxBufferLen = .error (.bufferTooLong l maxBufferLen d.off)) ∧
      (0 ≤ l → l ≤ maxBufferLen → l.toNat ≤ d1.bytes.length →
        ReadBuffer d maxBufferLen =
          .ok (some (d1.bytes.take l.toNat), ⟨d1.bytes.drop l.toNat, d.off + 4 + l.toNat⟩))) ∧
    ParseFile (mkSnapshot [rootRec0] []) = .ok demoTree ∧
    ParseFile (mkSnapshot [rootRecEmptyData] []) = .ok demoTreeEmptyData ∧
    demoTree.arena.map Node.data = [none] ∧
    demoTreeEmptyData.arena.map Node.data = [some []] ∧
    (none : Option GoStr) ≠ some [] := by
  refine ⟨?_, by rfl, by rfl, by rfl, by rfl, by decide⟩
  intro d l d1 h
  obtain ⟨hlen, hl, hd1⟩ := ReadInt32_ok_inv h
  subst hd1
  refine ⟨?_, ?_, ?_, ?_, ?_⟩
  · intro hm1
    simp only [ReadBuffer, h, if_pos hm1]
  · intro h0
    subst h0
    have h1 : ¬ ((0 : Int) = -1) := by omega
    have h2 : ¬ ((0 : Int) < -1) := by omega
    have h3 : ¬ ((0 : Int) > maxBufferLen) := by unfold maxBufferLen; omega
    have hrn := readN_ok (d := ⟨d.bytes.drop 4, d.off + 4⟩) (n := 0) (by simp)
    simp only [ReadBuffer, h, if_neg h1, if_neg h2, if_neg h3, Int.toNat_zero, hrn,
      List.take_zero, List.drop_zero, Nat.add_zero]
  · intro hlt
    have h1 : ¬ (l = -1) := by omega
    simp only [ReadBuffer, h, if_neg h1, if_pos hlt, Nat.add_sub_cancel]
  · intro hgt
    have h1 : ¬ (l = -1) := by unfold maxBufferLen at hgt; omega
    have h2 : ¬ (l < -1) := by unfold maxBufferLen at hgt; omega
    simp only [ReadBuffer, h, if_neg h1, if_neg h2, if_pos hgt, Nat.add_sub_cancel]
  · intro hge hle hok
    have h1 : ¬ (l = -1) := by omega
    have h2 : ¬ (l < -1) := by omega
    have h3 : ¬ (l > maxBufferLen) := by omega
    have hrn := readN_ok (d := ⟨d.bytes.drop 4, d.off + 4⟩) (n := l.toNat) hok
    simp only [ReadBuffer, h, if_neg h1, if_neg h2, if_neg h3, hrn]

/-- Witness for C4: the −1 length prefix yields the nil payload. -/
theorem c4_buffer_read_witness :
    ReadBuffer ⟨[255, 255, 255, 255], 0⟩ maxBufferLen = .ok (none, ⟨[], 4⟩) :=
  (c4_buffer_read.1 ⟨[255, 255, 255, 255], 0⟩ (-1) ⟨[], 4⟩ (by rfl)).1 rfl

/-- `ParseFile` reduced to its trailer stage once the four leading stages
succeed. -/
theorem ParseFile_stages {bs : List Nat} {header : Header} {d1 d2 : Decoder}
    {acls : List (Int × List ACL)} {d3 : Decoder} {t : Tree} {d4 : Decoder}
    (hh : parseHeader (newDecoder bs) = .ok (header, d1))
    (hs : parseSessions d1 = .ok d2)
    (ha : parseACLCache d2 = .ok (acls, d3))
    (hn : parseNodes d3 header acls = .ok (t, d4)) :
    ParseFile bs = parseTrailer t d4 := by
  simp only [ParseFile, hh, hs, ha, hn]

/-- Claim C8: after the sentinel, an exhausted stream makes the checksum
read fail and the parse end successfully; if the checksum read succeeds,
the following string read is mandatory and its failure fails the whole
parse. -/
theorem c8_trailer_semantics (bs : List Nat) (header : Header) (d1 d2 : Decoder)
    (acls : List (Int × List ACL)) (d3 : Decoder) (t : Tree) (d4 : Decoder)
    (hh : parseHeader (newDecoder bs) = .ok (header, d1))
    (hs : parseSessions d1 = .ok d2)
    (ha : parseACLCache d2 = .ok (acls, d3))
    (hn : parseNodes d3 header acls = .ok (t, d4)) :
    (d4.bytes = [] → ParseFile bs = .ok t) ∧
    (∀ c d5, ReadInt64 d4 = .ok (c, d5) →
      (∀ e, ReadString d5 maxStringLen = .error e → ParseFile bs = .error e) ∧
      (∀ s d6, ReadString d5 maxStringLen = .ok (s, d6) → ParseFile bs = .ok t)) := by
  have hpf := ParseFile_stages hh hs ha hn
  constructor
  · intro hemp
    rw [hpf]
    have h64 : ReadInt64 d4 = .error (.shortRead d4.off) := by
      unfold ReadInt64
      rw [readN_err (by simp [hemp])]
    simp only [parseTrailer, h64]
  · intro c d5 h64
    constructor
    · intro e hrs
      rw [hpf]
      simp only [parseTrailer, h64, hrs]
    · intro s d6 hrs
      rw [hpf]
      simp only [parseTrailer, h64, hrs]

/-- Witness for C8: a snapshot with no trailer parses successfully. -/
theorem c8_trailer_semantics_witness :
    ParseFile (mkSnapshot [rootRec0] []) = .ok demoTree :=
  (c8_trailer_semantics (mkSnapshot [rootRec0] []) ⟨snapshotMagic, 0, 0⟩
    ⟨encodeInt32 0 ++ encodeInt32 0 ++ encodeRecords [rootRec0] ++ sentinelBytes, 16⟩
    ⟨encodeInt32 0 ++ encodeRecords [rootRec0] ++ sentinelBytes, 20⟩
    [] ⟨encodeRecords [rootRec0] ++ sentinelBytes, 24⟩ demoTree ⟨[], 105⟩
    (by rfl) (by rfl) (by rfl) (by rfl)).1 rfl

/-- Claim C10: trailer content is never validated — a failing checksum
read (for any reason, including 1–7 leftover bytes) still ends the parse
successfully, and when it succeeds any trailer string is accepted with
any bytes after it left unread. -/
theorem c10_trailer_unvalidated (bs : List Nat) (header : Header) (d1 d2 : Decoder)
    (acls : List (Int × List ACL)) (d3 : Decoder) (t : Tree) (d4 : Decoder)
    (hh : parseHeader (newDecoder bs) = .ok (header, d1))
    (hs : parseSessions d1 = .ok d2)
    (ha : parseACLCache d2 = .ok (acls, d3))
    (hn : parseNodes d3 header acls = .ok (t, d4)) :
    (∀ e, ReadInt64 d4 = .error e → ParseFile bs = .ok t) ∧
    (∀ c d5 s d6, ReadInt64 d4 = .ok (c, d5) →
      ReadString d5 maxStringLen = .ok (s, d6) → ParseFile bs = .ok t) := by
  have hpf := ParseFile_stages hh hs ha hn
  constructor
  · intro e h64
    rw [hpf]
    simp only [parseTrailer, h64]
  · intro c d5 s d6 h64 hrs
    rw [hpf]
    simp only [parseTrailer, h64, hrs]

/-- Witness for C10: three garbage bytes after the sentinel are accepted. -/
theorem c10_trailer_unvalidated_witness :
    ParseFile (mkSnapshot [rootRec0] [9, 9, 9]) = .ok demoTree :=
  (c10_trailer_unvalidated (mkSnapshot [rootRec0] [9, 9, 9]) ⟨snapshotMagic, 0, 0⟩
    ⟨encodeInt32 0 ++ encodeInt32 0 ++ encodeRecords [rootRec0] ++ sentinelBytes ++ [9, 9, 9], 16⟩
    ⟨encodeInt32 0 ++ encodeRecords [rootRec0] ++ sentinelBytes ++ [9, 9, 9], 20⟩
    [] ⟨encodeRecords [rootRec0] ++ sentinelBytes ++ [9, 9, 9], 24⟩ demoTree ⟨[9, 9, 9], 105⟩
    (by rfl) (by rfl) (by rfl) (by rfl)).1 (.shortRead 105) (by rfl)

/-- Claim C3: tree-integrity violations are fatal with no repair — a
record whose parent path is absent from the in-progress map fails the
loop immediately, and reaching the sentinel with no empty-path record
seen fails `parseNodes`. -/
theorem c3_integrity_fatal :
    (∀ (fuel : Nat) (arena : List Node) (byPath : List (GoStr × Nat))
       (d d1 d2 d3 d4 : Decoder) (p : GoStr) (data : Option GoStr)
       (a : Int) (s : StatPersisted),
       ReadString d maxStringLen = .ok (p, d1) → p ≠ [47] → p ≠ [] →
       ReadBuffer d1 maxBufferLen = .ok (data, d2) →
       ReadInt64 d2 = .ok (a, d3) →
       parseStatPersisted d3 = .ok (s, d4) →
       mapLookup byPath (parentOf p) = none →
       parseNodesLoop (fuel + 1) arena byPath d =
         .error (.parentNotFound (parentOf p) p)) ∧
    (∀ (d : Decoder) (header : Header) (acls : List (Int × List ACL))
       (arena : List Node) (byPath : List (GoStr × Nat)) (d' : Decoder),
       parseNodesLoop (d.bytes.length + 1) [] [] d = .ok (arena, byPath, d') →
       mapLookup byPath [] = none →
       parseNodes d header acls = .error .missingRoot) := by
  constructor
  · intro fuel arena byPath d d1 d2 d3 d4 p data a s hRS h47 hne hRB hRI hPS hpar
    have hins := mapLookup_insert_ne (k := parentOf p) byPath arena.length
      (Ne.symm (parentOf_ne hne))
    simp only [parseNodesLoop, hRS, if_neg h47, hRB, hRI, hPS, if_neg hne, hins, hpar]
  · intro d header acls arena byPath d' hl hr
    simp only [parseNodes, hl, hr]

/-- Witness for C3: a stream starting with "/a" (no root yet) hits the
missing-parent error; a bare sentinel stream hits the missing-root error. -/
theorem c3_integrity_fatal_witness :
    parseNodesLoop 1 [] [] ⟨encodeRecord ⟨[47, 97], none, -1, statD⟩ ++ sentinelBytes, 0⟩ =
      .error (.parentNotFound [] [47, 97]) ∧
    parseNodes ⟨sentinelBytes, 0⟩ ⟨snapshotMagic, 0, 0⟩ [] = .error .missingRoot :=
  ⟨c3_integrity_fatal.1 0 [] []
      ⟨encodeRecord ⟨[47, 97], none, -1, statD⟩ ++ sentinelBytes, 0⟩
      ⟨encodeInt32 (-1) ++ encodeInt64 (-1) ++ encodeStat statD ++ sentinelBytes, 6⟩
      ⟨encodeInt64 (-1) ++ encodeStat statD ++ sentinelBytes, 10⟩
      ⟨encodeStat statD ++ sentinelBytes, 18⟩ ⟨sentinelBytes, 78⟩
      [47, 97] none (-1) statD
      (by rfl) (by decide) (by decide) (by rfl) (by rfl) (by rfl) (by rfl),
   c3_integrity_fatal.2 ⟨sentinelBytes, 0⟩ ⟨snapshotMagic, 0, 0⟩ [] [] [] ⟨[], 5⟩
      (by rfl) (by rfl)⟩

/-- An "/a" record with a one-byte payload `[v]`. -/
def dupRecA (v : Nat) : NodeRec := ⟨[47, 97], some [v], -1, statD⟩

/-- The tree produced by parsing a stream with two "/a" records. -/
def demoDupTree : Tree :=
  ⟨⟨snapshotMagic, 0, 0⟩,
   [⟨[47], [], none, -1, statD, none, [1, 2]⟩,
    ⟨[97], [47, 97], some [1], -1, statD, some 0, []⟩,
    ⟨[97], [47, 97], some [2], -1, statD, some 0, []⟩],
   0, [([47], 0), ([47, 97], 2), ([47, 97], 1), ([], 0)], []⟩

/-- Claim C9: duplicate paths are not rejected — a record whose path is
already in the map is processed like any other (the map entry is
replaced, the parent's child list grows), and on a concrete two-"/a"
stream the lookup names the later node while the earlier one stays in
the root's child list. -/
theorem c9_duplicate_paths :
    (∀ (fuel : Nat) (arena : List Node) (byPath : List (GoStr × Nat))
       (d d1 d2 d3 d4 : Decoder) (p : GoStr) (data : Option GoStr)
       (a : Int) (s : StatPersisted) (k j : Nat),
       ReadString d maxStringLen = .ok (p, d1) → p ≠ [47] → p ≠ [] →
       ReadBuffer d1 maxBufferLen = .ok (data, d2) →
       ReadInt64 d2 = .ok (a, d3) →
       parseStatPersisted d3 = .ok (s, d4) →
       mapLookup byPath p = some k →
       mapLookup byPath (parentOf p) = some j →
       parseNodesLoop (fuel + 1) arena byPath d =
         parseNodesLoop fuel
           (setParent (appendChild (arena ++ [⟨nodeID p, p, data, a, s, none, []⟩])
              j arena.length) arena.length j)
           (mapInsert byPath p arena.length) d4 ∧
       mapLookup (mapInsert byPath p arena.length) p = some arena.length) ∧
    (∃ t d', parseNodes ⟨encodeRecords [rootRec0, dupRecA 1, dupRecA 2] ++ sentinelBytes, 0⟩
        ⟨snapshotMagic, 0, 0⟩ [] = .ok (t, d') ∧
      mapLookup t.byPath [47, 97] = some 2 ∧
      (t.arena.getD 0 nodeD).children = [1, 2] ∧
      (t.arena.getD 1 nodeD).data = some [1] ∧
      (t.arena.getD 2 nodeD).data = some [2] ∧
      t.arena.getD 1 nodeD ≠ t.arena.getD 2 nodeD) := by
  constructor
  · intro fuel arena byPath d d1 d2 d3 d4 p data a s k j hRS h47 hne hRB hRI hPS hdup hpar
    have hins := mapLookup_insert_ne (k := parentOf p) byPath arena.length
      (Ne.symm (parentOf_ne hne))
    constructor
    · simp only [parseNodesLoop, hRS, if_neg h47, hRB, hRI, hPS, if_neg hne, hins, hpar]
    · exact mapLookup_insert_self byPath p arena.length
  · exact ⟨demoDupTree, ⟨[], 239⟩, by rfl, by rfl, by rfl, by rfl, by rfl, by decide⟩

/-! ## Infrastructure for the well-formed-stream theorem (C2) -/

/-- The path map as the loop leaves it after processing `recs`, the
first record getting index `i`: a prepend-ordered association list. -/
def mkByPath : List NodeRec → Nat → List (GoStr × Nat)
  | [], _ => []
  | r :: rs, i => mkByPath rs (i + 1) ++ [(r.path, i)]

theorem mkByPath_append_single (xs : List NodeRec) (r : NodeRec) (i : Nat) :
    mkByPath (xs ++ [r]) i = (r.path, i + xs.length) :: mkByPath xs i := by
  induction xs generalizing i with
  | nil => simp [mkByPath]
  | cons x xs ih =>
    show mkByPath (xs ++ [r]) (i + 1) ++ [(x.path, i)] = _
    rw [ih (i + 1)]
    simp [mkByPath]
    omega

theorem mapLookup_cons (k' : GoStr) (v : Nat) (m : List (GoStr × Nat)) (k : GoStr) :
    mapLookup ((k', v) :: m) k = if k' = k then some v else mapLookup m k := rfl

theorem mapLookup_append (m1 m2 : List (GoStr × Nat)) (k : GoStr) :
    mapLookup (m1 ++ m2) k =
      match mapLookup m1 k with
      | some v => some v
      | none => mapLookup m2 k := by
  induction m1 with
  | nil => simp [mapLookup]
  | cons p m1 ih =>
    obtain ⟨k', v⟩ := p
    rw [List.cons_append, mapLookup_cons, mapLookup_cons]
    by_cases h : k' = k
    · simp [h]
    · simp [h, ih]

theorem lookup_mkByPath_sound {recs : List NodeRec} {i k : Nat} {q : GoStr}
    (h : mapLookup (mkByPath recs i) q = some k) :
    ∃ j, j < recs.length ∧ k = i + j ∧ (recs.getD j recD).path = q := by
  induction recs generalizing i with
  | nil => simp [mkByPath, mapLookup] at h
  | cons r rs ih =>
    rw [show mkByPath (r :: rs) i = mkByPath rs (i + 1) ++ [(r.path, i)] from rfl,
      mapLookup_append] at h
    cases hl : mapLookup (mkByPath rs (i + 1)) q with
    | some v =>
      rw [hl] at h
      injection h with h'
      subst h'
      obtain ⟨j, hj, hk, hp⟩ := ih hl
      exact ⟨j + 1, by simpa using hj, by omega, by simpa using hp⟩
    | none =>
      rw [hl] at h
      by_cases hq : r.path = q
      · simp only [mapLookup, if_pos hq] at h
        injection h with h'
        exact ⟨0, by simp, by omega, by simpa using hq⟩
      · simp [mapLookup, if_neg hq] at h

theorem lookup_mkByPath_present {recs : List NodeRec} {j : Nat} {q : GoStr} (i : Nat)
    (hj : j < recs.length) (hq : (recs.getD j recD).path = q) :
    ∃ k, mapLookup (mkByPath recs i) q = some k := by
  induction recs generalizing i j with
  | nil => simp at hj
  | cons r rs ih =>
    rw [show mkByPath (r :: rs) i = mkByPath rs (i + 1) ++ [(r.path, i)] from rfl,
      mapLookup_append]
    cases hl : mapLookup (mkByPath rs (i + 1)) q with
    | some v => exact ⟨v, rfl⟩
    | none =>
      cases j with
      | zero =>
        simp only [List.getD_cons_zero] at hq
        exact ⟨i, by simp [mapLookup, if_pos hq]⟩
      | succ j' =>
        have hj' : j' < rs.length := by simpa using hj
        have hq' : (rs.getD j' recD).path = q := by simpa using hq
        obtain ⟨k, hk⟩ := ih (i + 1) hj' hq'
        rw [hk] at hl
        exact absurd hl (by simp)

theorem length_modifyAt (f : Node → Node) (i : Nat) (l : List Node) :
    (modifyAt f i l).length = l.length := by
  induction l generalizing i with
  | nil => cases i <;> rfl
  | cons x xs ih =>
    cases i with
    | zero => rfl
    | succ i' => simp [modifyAt, ih]

theorem getD_modifyAt_self (f : Node → Node) {i : Nat} {l : List Node}
    (h : i < l.length) (d : Node) : (modifyAt f i l).getD i d = f (l.getD i d) := by
  induction l generalizing i with
  | nil => simp at h
  | cons x xs ih =>
    cases i with
    | zero => rfl
    | succ i' => exact ih (by simpa using h)

theorem getD_modifyAt_ne (f : Node → Node) {i k : Nat} (l : List Node)
    (h : i ≠ k) (d : Node) : (modifyAt f i l).getD k d = l.getD k d := by
  induction l generalizing i k with
  | nil => cases i <;> rfl
  | cons x xs ih =>
    cases i with
    | zero =>
      cases k with
      | zero => exact absurd rfl h
      | succ k' => rfl
    | succ i' =>
      cases k with
      | zero => rfl
      | succ k' => exact ih (by omega)

/-- Downward reachability through `children` links in an arena. -/
inductive Reaches (arena : List Node) : Nat → Nat → Prop where
  | refl (i : Nat) : Reaches arena i i
  | child {i j j' : Nat} : Reaches arena i j → j' ∈ (arena.getD j nodeD).children →
      Reaches arena i j'

/-- The invariant maintained by the `parseNodes` loop over a well-formed
stream: `done` is the list of records already processed, `arena` the
nodes allocated so far (in stream order), `byPath` the path map. -/
structure LoopInv (done : List NodeRec) (arena : List Node)
    (byPath : List (GoStr × Nat)) : Prop where
  len : arena.length = done.length
  path_eq : ∀ k, k < done.length →
    (arena.getD k nodeD).path = (done.getD k recD).path
  bp : byPath = mkByPath done 0
  parent_none : ∀ k, k < done.length → (done.getD k recD).path = [] →
    (arena.getD k nodeD).parent = none
  parent_some : ∀ k, k < done.length → (done.getD k recD).path ≠ [] →
    ∃ j, j < k ∧ (arena.getD k nodeD).parent = some j ∧
      (done.getD j recD).path = parentOf ((done.getD k recD).path)
  children_char : ∀ k, k < arena.length →
    (arena.getD k nodeD).children =
      (List.range arena.length).filter
        (fun m => decide ((arena.getD m nodeD).parent = some k))

theorem LoopInv.nil : LoopInv [] [] [] := by
  refine ⟨rfl, ?_, rfl, ?_, ?_, ?_⟩ <;> intro k hk <;> simp at hk

theorem LoopInv.parent_lt {done arena byPath} (inv : LoopInv done arena byPath)
    {m jj : Nat} (hm : m < arena.length)
    (h : (arena.getD m nodeD).parent = some jj) : jj < m := by
  have hm' : m < done.length := by rw [← inv.len]; exact hm
  by_cases hp : (done.getD m recD).path = []
  · rw [inv.parent_none m hm' hp] at h
    exact absurd h (by simp)
  · obtain ⟨j, hj, hpar, -⟩ := inv.parent_some m hm' hp
    rw [hpar] at h
    injection h with h'
    omega

theorem filter_range_succ (n : Nat) (p : Nat → Bool) :
    (List.range (n + 1)).filter p =
      (List.range n).filter p ++ (if p n then [n] else []) := by
  rw [List.range_succ, List.filter_append]
  congr 1
  by_cases h : p n <;> simp [List.filter, h]

theorem LoopInv.step_root {done arena byPath} (inv : LoopInv done arena byPath)
    (r : NodeRec) (hroot : r.path = []) (data : Option GoStr) (a : Int)
    (s : StatPersisted) :
    LoopInv (done ++ [r])
      (arena ++ [⟨nodeID r.path, r.path, data, a, s, none, []⟩])
      (mapInsert byPath r.path arena.length) := by
  set nd : Node := ⟨nodeID r.path, r.path, data, a, s, none, []⟩ with hnd
  have hn := inv.len
  have hgetlt : ∀ k, k < arena.length →
      ((arena ++ [nd]).getD k nodeD) = arena.getD k nodeD :=
    fun k hk => List.getD_append arena [nd] nodeD k hk
  have hgetn : (arena ++ [nd]).getD arena.length nodeD = nd := by simp
  have hdlt : ∀ k, k < done.length →
      ((done ++ [r]).getD k recD) = done.getD k recD :=
    fun k hk => List.getD_append done [r] recD k hk
  have hdn : (done ++ [r]).getD done.length recD = r := by simp
  refine ⟨by simp [hn], ?_, ?_, ?_, ?_, ?_⟩
  · intro k hk
    simp only [List.length_append, List.length_singleton] at hk
    rcases Nat.lt_or_ge k done.length with hlt | hge
    · rw [hdlt k hlt, hgetlt k (by omega), inv.path_eq k hlt]
    · have hkeq : k = done.length := by omega
      subst hkeq
      rw [hdn, ← hn, hgetn]
  · rw [mkByPath_append_single, inv.bp, hn]
    simp [mapInsert]
  · intro k hk hp
    simp only [List.length_append, List.length_singleton] at hk
    rcases Nat.lt_or_ge k done.length with hlt | hge
    · rw [hdlt k hlt] at hp
      rw [hgetlt k (by omega)]
      exact inv.parent_none k hlt hp
    · have hkeq : k = done.length := by omega
      subst hkeq
      rw [← hn, hgetn]
  · intro k hk hp
    simp only [List.length_append, List.length_singleton] at hk
    rcases Nat.lt_or_ge k done.length with hlt | hge
    · rw [hdlt k hlt] at hp
      obtain ⟨j, hj, hpar, hjp⟩ := inv.parent_some k hlt hp
      exact ⟨j, hj, by rw [hgetlt k (by omega)]; exact hpar,
        by rw [hdlt j (by omega), hdlt k hlt]; exact hjp⟩
    · have hkeq : k = done.length := by omega
      subst hkeq
      rw [hdn] at hp
      exact absurd hroot hp
  · intro k hk
    simp only [List.length_append, List.length_singleton] at hk ⊢
    have hpred : ∀ m ∈ List.range arena.length,
        decide (((arena ++ [nd]).getD m nodeD).parent = some k) =
        decide ((arena.getD m nodeD).parent = some k) := by
      intro m hm
      rw [hgetlt m (List.mem_range.mp hm)]
    have hpredn : decide (((arena ++ [nd]).getD arena.length nodeD).parent = some k)
        = false := by
      rw [hgetn]
      simp [hnd]
    rcases Nat.lt_or_ge k arena.length with hlt | hge
    · rw [hgetlt k hlt, inv.children_char k hlt, filter_range_succ,
        List.filter_congr hpred, hpredn]
      simp
    · have hkeq : k = arena.length := by omega
      subst hkeq
      rw [hgetn]
      show ([] : List Nat) = _
      rw [filter_range_succ, List.filter_congr hpred, hpredn]
      simp only [if_neg (by simp : ¬ false = true), List.append_nil]
      symm
      rw [List.filter_eq_nil_iff]
      intro m hm
      have hmlt := List.mem_range.mp hm
      simp only [decide_eq_true_eq]
      intro hpar
      have := inv.parent_lt hmlt hpar
      omega

theorem LoopInv.step_link {done arena byPath} (inv : LoopInv done arena byPath)
    (r : NodeRec) (hne : r.path ≠ []) {j : Nat} (hj : j < done.length)
    (hjp : (done.getD j recD).path = parentOf r.path)
    (data : Option GoStr) (a : Int) (s : StatPersisted) :
    LoopInv (done ++ [r])
      (setParent (appendChild (arena ++ [⟨nodeID r.path, r.path, data, a, s, none, []⟩])
        j arena.length) arena.length j)
      (mapInsert byPath r.path arena.length) := by
  set nd : Node := ⟨nodeID r.path, r.path, data, a, s, none, []⟩ with hnd
  have hn := inv.len
  have hjn : j < arena.length := by omega
  set n := arena.length with hdefn
  set arena2 := setParent (appendChild (arena ++ [nd]) j n) n j with harena2
  have hlen0 : (arena ++ [nd]).length = n + 1 := by simp [hdefn]
  have hlen1 : (appendChild (arena ++ [nd]) j n).length = n + 1 := by
    unfold appendChild
    rw [length_modifyAt]
    simp
  have hlen2 : arena2.length = n + 1 := by
    rw [harena2]
    unfold setParent
    rw [length_modifyAt, hlen1]
  have hget1lt : ∀ k, k < n → ((arena ++ [nd]).getD k nodeD) = arena.getD k nodeD :=
    fun k hk => List.getD_append arena [nd] nodeD k hk
  have hget1n : (arena ++ [nd]).getD n nodeD = nd := by simp [hdefn]
  have hget2n : arena2.getD n nodeD = { nd with parent := some j } := by
    rw [harena2]
    unfold setParent
    rw [getD_modifyAt_self _ (by omega) nodeD]
    unfold appendChild
    rw [getD_modifyAt_ne _ _ (by omega) nodeD, hget1n]
  have hget2j : arena2.getD j nodeD =
      { arena.getD j nodeD with
        children := (arena.getD j nodeD).children ++ [n] } := by
    rw [harena2]
    unfold setParent
    rw [getD_modifyAt_ne _ _ (by omega) nodeD]
    unfold appendChild
    rw [getD_modifyAt_self _ (by omega) nodeD, hget1lt j hjn]
  have hget2lt : ∀ k, k < n → k ≠ j → arena2.getD k nodeD = arena.getD k nodeD := by
    intro k hk hkj
    rw [harena2]
    unfold setParent
    rw [getD_modifyAt_ne _ _ (by omega) nodeD]
    unfold appendChild
    rw [getD_modifyAt_ne _ _ (fun h => hkj h.symm) nodeD, hget1lt k hk]
  have hparent2 : ∀ m, m < n → (arena2.getD m nodeD).parent =
      (arena.getD m nodeD).parent := by
    intro m hm
    by_cases hmj : m = j
    · subst hmj
      rw [hget2j]
    · rw [hget2lt m hm hmj]
  have hdlt : ∀ k, k < done.length →
      ((done ++ [r]).getD k recD) = done.getD k recD :=
    fun k hk => List.getD_append done [r] recD k hk
  have hdn : (done ++ [r]).getD done.length recD = r := by simp
  refine ⟨by simp [hlen2, hn], ?_, ?_, ?_, ?_, ?_⟩
  · intro k hk
    simp only [List.length_append, List.length_singleton] at hk
    rcases Nat.lt_or_ge k done.length with hlt | hge
    · rw [hdlt k hlt]
      by_cases hkj : k = j
      · subst hkj
        rw [hget2j]
        exact inv.path_eq k hlt
      · rw [hget2lt k (by omega) hkj]
        exact inv.path_eq k hlt
    · have hkeq : k = done.length := by omega
      subst hkeq
      rw [hdn, show done.length = n from hn.symm, hget2n]
  · rw [mkByPath_append_single, inv.bp, hn]
    simp [mapInsert]
  · intro k hk hp
    simp only [List.length_append, List.length_singleton] at hk
    rcases Nat.lt_or_ge k done.length with hlt | hge
    · rw [hdlt k hlt] at hp
      rw [hparent2 k (by omega)]
      exact inv.parent_none k hlt hp
    · have hkeq : k = done.length := by omega
      subst hkeq
      rw [hdn] at hp
      exact absurd hp hne
  · intro k hk hp
    simp only [List.length_append, List.length_singleton] at hk
    rcases Nat.lt_or_ge k done.length with hlt | hge
    · rw [hdlt k hlt] at hp
      obtain ⟨j', hj', hpar, hjp'⟩ := inv.parent_some k hlt hp
      exact ⟨j', hj', by rw [hparent2 k (by omega)]; exact hpar,
        by rw [hdlt j' (by omega), hdlt k hlt]; exact hjp'⟩
    · have hkeq : k = done.length := by omega
      subst hkeq
      refine ⟨j, by omega, ?_, ?_⟩
      · rw [show done.length = n from hn.symm, hget2n]
      · rw [hdlt j hj, hdn]
        exact hjp
  · intro k hk
    rw [hlen2] at hk
    have hpred : ∀ m ∈ List.range n,
        decide ((arena2.getD m nodeD).parent = some k) =
        decide ((arena.getD m nodeD).parent = some k) := by
      intro m hm
      rw [hparent2 m (List.mem_range.mp hm)]
    have hpredn : decide ((arena2.getD n nodeD).parent = some k) =
        decide (j = k) := by
      rw [hget2n]
      simp
    rw [hlen2, filter_range_succ, List.filter_congr hpred, hpredn]
    by_cases hkj : k = j
    · subst hkj
      rw [hget2j, inv.children_char k hjn]
      simp [hdefn]
    · have hif : (if decide (j = k) = true then [n] else []) = [] := by
        simp [Ne.symm hkj]
      rw [hif, List.append_nil]
      rcases Nat.lt_or_ge k n with hlt | hge
      · rw [hget2lt k hlt hkj, inv.children_char k hlt]
      · have hkeq : k = n := by omega
        subst hkeq
        rw [hget2n]
        show ([] : List Nat) = _
        symm
        rw [List.filter_eq_nil_iff]
        intro m hm
        have hmlt := List.mem_range.mp hm
        simp only [decide_eq_true_eq]
        intro hpar
        have := inv.parent_lt hmlt hpar
        omega

theorem encodeRecords_cons (r : NodeRec) (rs : List NodeRec) :
    encodeRecords (r :: rs) = encodeRecord r ++ encodeRecords rs := by
  simp [encodeRecords]

theorem encodeRecord_length_pos (r : NodeRec) : 0 < (encodeRecord r).length := by
  have h : (encodeString r.path).length = 4 + r.path.length := by
    simp [encodeString, encodeInt32_length]
  simp only [encodeRecord, List.length_append, h]
  omega

theorem parseNodesLoop_encode (todo : List NodeRec) :
    ∀ (done : List NodeRec) (arena : List Node) (byPath : List (GoStr × Nat))
      (off : Nat) (rest : List Nat) (fuel : Nat),
      LoopInv done arena byPath →
      (∀ r ∈ todo, r.path ≠ [47] ∧ pathOk r.path ∧ dataOk r.data) →
      (∀ i, i < (done ++ todo).length → ((done ++ todo).getD i recD).path ≠ [] →
        ∃ j, j < i ∧ ((done ++ todo).getD j recD).path =
          parentOf (((done ++ todo).getD i recD).path)) →
      (encodeRecords todo ++ sentinelBytes ++ rest).length < fuel →
      ∃ arenaF byPathF offF,
        parseNodesLoop fuel arena byPath ⟨encodeRecords todo ++ sentinelBytes ++ rest, off⟩ =
          .ok (arenaF, byPathF, ⟨rest, offF⟩) ∧
        LoopInv (done ++ todo) arenaF byPathF := by
  induction todo with
  | nil =>
    intro done arena byPath off rest fuel inv hside hpar hfuel
    cases fuel with
    | zero => exact absurd hfuel (Nat.not_lt_zero _)
    | succ f =>
      have hb : encodeRecords [] ++ sentinelBytes ++ rest = encodeString [47] ++ rest := by
        simp [encodeRecords, sentinelBytes]
      have hrs := ReadString_encode (s := [47]) rest off (by norm_num)
      refine ⟨arena, byPath, off + 4 + 1, ?_, by simpa using inv⟩
      rw [hb]
      simp [parseNodesLoop, hrs]
  | cons r rs ih =>
    intro done arena byPath off rest fuel inv hside hpar hfuel
    obtain ⟨h47, hpOk, hdOk⟩ := hside r (List.mem_cons_self r rs)
    cases fuel with
    | zero => exact absurd hfuel (Nat.not_lt_zero _)
    | succ f =>
      have hb : encodeRecords (r :: rs) ++ sentinelBytes ++ rest =
          encodeRecord r ++ (encodeRecords rs ++ sentinelBytes ++ rest) := by
        rw [encodeRecords_cons]
        simp
      obtain ⟨a', s', hRS, hRB, hRI, hPS⟩ :=
        encodeRecord_step r (encodeRecords rs ++ sentinelBytes ++ rest) off hpOk hdOk
      have happ : (done ++ [r]) ++ rs = done ++ (r :: rs) := by simp
      have hside' : ∀ r' ∈ rs, r'.path ≠ [47] ∧ pathOk r'.path ∧ dataOk r'.data :=
        fun r' hr' => hside r' (List.mem_cons_of_mem r hr')
      have hpar' : ∀ i, i < ((done ++ [r]) ++ rs).length →
          (((done ++ [r]) ++ rs).getD i recD).path ≠ [] →
          ∃ j, j < i ∧ (((done ++ [r]) ++ rs).getD j recD).path =
            parentOf ((((done ++ [r]) ++ rs).getD i recD).path) := by
        rw [happ]
        exact hpar
      have hfuel' : (encodeRecords rs ++ sentinelBytes ++ rest).length < f := by
        rw [hb] at hfuel
        rw [List.length_append] at hfuel
        have h2 := encodeRecord_length_pos r
        omega
      by_cases hroot : r.path = []
      · have inv' := inv.step_root r hroot r.data a' s'
        obtain ⟨arenaF, byPathF, offF, hloop, hinvF⟩ :=
          ih (done ++ [r])
            (arena ++ [⟨nodeID r.path, r.path, r.data, a', s', none, []⟩])
            (mapInsert byPath r.path arena.length)
            (off + 4 + r.path.length + (encodeBuffer r.data).length + 8 + 60)
            rest f inv' hside' hpar' hfuel'
        refine ⟨arenaF, byPathF, offF, ?_, by rwa [happ] at hinvF⟩
        rw [hb]
        simp only [parseNodesLoop, hRS, if_neg h47, hRB, hRI, hPS, if_pos hroot]
        exact hloop
      · have hglen : done.length < (done ++ r :: rs).length := by simp
        have hgpath : ((done ++ r :: rs).getD done.length recD) = r := by
          rw [List.getD_append_right _ _ _ _ (le_refl _)]
          simp
        obtain ⟨jg, hjglt, hjgpath⟩ := hpar done.length hglen
          (by rw [hgpath]; exact hroot)
        rw [hgpath] at hjgpath
        rw [List.getD_append _ _ _ _ hjglt] at hjgpath
        obtain ⟨k0, hk0⟩ := lookup_mkByPath_present 0 hjglt hjgpath
        obtain ⟨jj, hjjlt, hk0eq, hjjpath⟩ := lookup_mkByPath_sound hk0
        have hk0lt : k0 < done.length := by omega
        have hk0path : (done.getD k0 recD).path = parentOf r.path := by
          have hkjj : k0 = jj := by omega
          rw [hkjj]
          exact hjjpath
        have hlook : mapLookup (mapInsert byPath r.path arena.length)
            (parentOf r.path) = some k0 := by
          rw [mapLookup_insert_ne byPath arena.length (Ne.symm (parentOf_ne hroot)),
            inv.bp]
          exact hk0
        have inv' := inv.step_link r hroot hk0lt hk0path r.data a' s'
        obtain ⟨arenaF, byPathF, offF, hloop, hinvF⟩ :=
          ih (done ++ [r])
            (setParent (appendChild
              (arena ++ [⟨nodeID r.path, r.path, r.data, a', s', none, []⟩])
              k0 arena.length) arena.length k0)
            (mapInsert byPath r.path arena.length)
            (off + 4 + r.path.length + (encodeBuffer r.data).length + 8 + 60)
            rest f inv' hside' hpar' hfuel'
        refine ⟨arenaF, byPathF, offF, ?_, by rwa [happ] at hinvF⟩
        rw [hb]
        simp only [parseNodesLoop, hRS, if_neg h47, hRB, hRI, hPS, if_neg hroot, hlook]
        exact hloop

theorem path_inj {recs : List NodeRec} (hnd : (recs.map NodeRec.path).Nodup)
    {i j : Nat} (hi : i < recs.length) (hj : j < recs.length)
    (h : (recs.getD i recD).path = (recs.getD j recD).path) : i = j := by
  have hi' : i < (recs.map NodeRec.path).length := by simpa using hi
  have hj' : j < (recs.map NodeRec.path).length := by simpa using hj
  have hgi : (recs.map NodeRec.path)[i] = (recs.getD i recD).path := by
    rw [List.getElem_map, List.getD_eq_getElem recs recD hi]
  have hgj : (recs.map NodeRec.path)[j] = (recs.getD j recD).path := by
    rw [List.getElem_map, List.getD_eq_getElem recs recD hj]
  exact hnd.getElem_inj_iff.mp (by rw [hgi, hgj, h])

theorem reaches_all {recs : List NodeRec} {arena : List Node}
    {byPath : List (GoStr × Nat)} (inv : LoopInv recs arena byPath)
    (hnd : (recs.map NodeRec.path).Nodup) {root : Nat}
    (hrlt : root < recs.length) (hrpath : (recs.getD root recD).path = []) :
    ∀ k, Reaches arena root k ↔ k < recs.length := by
  intro k
  constructor
  · intro h
    induction h with
    | refl => exact hrlt
    | child hr hmem ihh =>
      rename_i j0 j0'
      have hj0 : j0 < arena.length := by rw [inv.len]; exact ihh
      rw [inv.children_char j0 hj0] at hmem
      have := (List.mem_filter.mp hmem).1
      rw [← inv.len]
      exact List.mem_range.mp this
  · intro hk
    induction k using Nat.strong_induction_on with
    | _ k ihk =>
      by_cases hkr : k = root
      · rw [hkr]
        exact Reaches.refl root
      · have hkp : (recs.getD k recD).path ≠ [] := by
          intro hp
          exact hkr (path_inj hnd hk hrlt (by rw [hp, hrpath]))
        obtain ⟨j, hjk, hpar, -⟩ := inv.parent_some k hk hkp
        have hreach : Reaches arena root j := ihk j hjk (by omega)
        refine Reaches.child hreach ?_
        rw [inv.children_char j (by rw [inv.len]; omega)]
        rw [List.mem_filter]
        exact ⟨List.mem_range.mpr (by rw [inv.len]; exact hk), decide_eq_true hpar⟩

theorem nonroot_char {recs : List NodeRec} {arena : List Node}
    {byPath : List (GoStr × Nat)} (inv : LoopInv recs arena byPath)
    (hnd : (recs.map NodeRec.path).Nodup) {root : Nat}
    (hrlt : root < recs.length) (hrpath : (recs.getD root recD).path = []) :
    ∀ k, k < recs.length → k ≠ root →
      ∃ j, j < recs.length ∧ (arena.getD k nodeD).parent = some j ∧
        List.count k ((arena.getD j nodeD).children) = 1 ∧
        parentOf ((arena.getD k nodeD).path) = (arena.getD j nodeD).path := by
  intro k hk hkr
  have hkp : (recs.getD k recD).path ≠ [] := by
    intro hp
    exact hkr (path_inj hnd hk hrlt (by rw [hp, hrpath]))
  obtain ⟨j, hjk, hpar, hjp⟩ := inv.parent_some k hk hkp
  have hjlen : j < recs.length := by omega
  refine ⟨j, hjlen, hpar, ?_, ?_⟩
  · rw [inv.children_char j (by rw [inv.len]; exact hjlen)]
    have hndf : ((List.range arena.length).filter
        (fun m => decide ((arena.getD m nodeD).parent = some j))).Nodup :=
      (List.nodup_range _).filter _
    refine List.count_eq_one_of_mem hndf ?_
    rw [List.mem_filter]
    exact ⟨List.mem_range.mpr (by rw [inv.len]; exact hk), decide_eq_true hpar⟩
  · rw [inv.path_eq k hk, inv.path_eq j hjlen, hjp]

/-- Claim C2: parsing a synthesized well-formed stream of `N` node
records succeeds; the resulting arena has exactly `N` nodes, the set of
indices reachable from the root is exactly those `N` nodes, and every
non-root node carries a parent back-reference to a node whose child list
contains it exactly once and whose path is its path's parent-prefix. -/
theorem c2_wellformed_stream (recs : List NodeRec) (hwf : WellFormed recs)
    (header : Header) (acls : List (Int × List ACL)) (off : Nat) (rest : List Nat) :
    ∃ t d',
      parseNodes ⟨encodeRecords recs ++ sentinelBytes ++ rest, off⟩ header acls =
        .ok (t, d') ∧
      t.arena.length = recs.length ∧
      (∀ k, Reaches t.arena t.rootIdx k ↔ k < recs.length) ∧
      (∀ k, k < recs.length → k ≠ t.rootIdx →
        ∃ j, j < recs.length ∧ (t.arena.getD k nodeD).parent = some j ∧
          List.count k ((t.arena.getD j nodeD).children) = 1 ∧
          parentOf ((t.arena.getD k nodeD).path) = (t.arena.getD j nodeD).path) := by
  obtain ⟨hnd, hroot, hpar, hside⟩ := hwf
  obtain ⟨ri, hri, hrip⟩ := hroot
  simp only [recPath] at hrip hpar
  have hpar' : ∀ i, i < ([] ++ recs).length → (([] ++ recs).getD i recD).path ≠ [] →
      ∃ j, j < i ∧ (([] ++ recs).getD j recD).path =
        parentOf ((([] ++ recs).getD i recD).path) := by
    simpa using hpar
  obtain ⟨arenaF, byPathF, offF, hloop, hinvF⟩ :=
    parseNodesLoop_encode recs [] [] [] off rest
      ((encodeRecords recs ++ sentinelBytes ++ rest).length + 1)
      LoopInv.nil hside hpar' (by omega)
  rw [List.nil_append] at hinvF
  obtain ⟨rk, hrk⟩ := lookup_mkByPath_present 0 hri hrip
  have hlookF : mapLookup byPathF [] = some rk := by
    rw [hinvF.bp]
    exact hrk
  obtain ⟨jj, hjjlt, hrkeq, hjjpath⟩ := by
    rw [hinvF.bp] at hlookF
    exact lookup_mkByPath_sound hlookF
  have hrklt : rk < recs.length := by omega
  have hrkpath : (recs.getD rk recD).path = [] := by
    have : rk = jj := by omega
    rw [this]
    exact hjjpath
  refine ⟨⟨header, arenaF, rk, mapInsert byPathF [47] rk, acls⟩, ⟨rest, offF⟩, ?_, ?_, ?_, ?_⟩
  · simp only [parseNodes, hloop, hlookF]
  · exact hinvF.len
  · exact reaches_all hinvF hnd hrklt hrkpath
  · exact nonroot_char hinvF hnd hrklt hrkpath

/-! ## The fuel artifact is unreachable: `ParseFile` never returns
`outOfFuel`. -/

theorem readN_err_inv {d : Decoder} {n : Nat} {e : DecodeError}
    (h : readN d n = .error e) : e = .shortRead d.off := by
  unfold readN at h
  by_cases hn : n ≤ d.bytes.length
  · rw [if_pos hn] at h
    exact absurd h (by simp)
  · rw [if_neg hn] at h
    injection h with h'
    exact h'.symm

theorem ReadInt32_err_inv {d : Decoder} {e : DecodeError}
    (h : ReadInt32 d = .error e) : e = .shortRead d.off := by
  unfold ReadInt32 at h
  cases hr : readN d 4 with
  | error e' =>
    simp only [hr, Except.error.injEq] at h
    rw [← h]
    exact readN_err_inv hr
  | ok p => simp [hr] at h

theorem ReadInt64_err_inv {d : Decoder} {e : DecodeError}
    (h : ReadInt64 d = .error e) : e = .shortRead d.off := by
  unfold ReadInt64 at h
  cases hr : readN d 8 with
  | error e' =>
    simp only [hr, Except.error.injEq] at h
    rw [← h]
    exact readN_err_inv hr
  | ok p => simp [hr] at h

theorem ReadString_err_ne {d : Decoder} {m : Int} {e : DecodeError}
    (h : ReadString d m = .error e) : e ≠ .outOfFuel := by
  unfold ReadString at h
  cases h32 : ReadInt32 d with
  | error e' =>
    simp only [h32, Except.error.injEq] at h
    rw [← h, ReadInt32_err_inv h32]
    simp
  | ok p =>
    obtain ⟨l, d1⟩ := p
    simp only [h32] at h
    by_cases h1 : l < 0
    · rw [if_pos h1] at h
      injection h with h'
      rw [← h']
      simp
    · rw [if_neg h1] at h
      by_cases h2 : l > m
      · rw [if_pos h2] at h
        injection h with h'
        rw [← h']
        simp
      · rw [if_neg h2] at h
        cases hr : readN d1 l.toNat with
        | error e' =>
          simp only [hr, Except.error.injEq] at h
          rw [← h, readN_err_inv hr]
          simp
        | ok q => simp [hr] at h

theorem ReadBuffer_err_ne {d : Decoder} {m : Int} {e : DecodeError}
    (h : ReadBuffer d m = .error e) : e ≠ .outOfFuel := by
  unfold ReadBuffer at h
  cases h32 : ReadInt32 d with
  | error e' =>
    simp only [h32, Except.error.injEq] at h
    rw [← h, ReadInt32_err_inv h32]
    simp
  | ok p =>
    obtain ⟨l, d1⟩ := p
    simp only [h32] at h
    by_cases h0 : l = -1
    · rw [if_pos h0] at h
      exact absurd h (by simp)
    · rw [if_neg h0] at h
      by_cases h1 : l < -1
      · rw [if_pos h1] at h
        injection h with h'
        rw [← h']
        simp
      · rw [if_neg h1] at h
        by_cases h2 : l > m
        · rw [if_pos h2] at h
          injection h with h'
          rw [← h']
          simp
        · rw [if_neg h2] at h
          cases hr : readN d1 l.toNat with
          | error e' =>
            simp only [hr, Except.error.injEq] at h
            rw [← h, readN_err_inv hr]
            simp
          | ok q => simp [hr] at h

theorem parseStatPersisted_err_ne {d : Decoder} {e : DecodeError}
    (h : parseStatPersisted d = .error e) : e ≠ .outOfFuel := by
  unfold parseStatPersisted at h
  cases h1 : ReadInt64 d with
  | error e' =>
    simp only [h1, Except.error.injEq] at h
    rw [← h, ReadInt64_err_inv h1]; simp
  | ok p1 =>
    obtain ⟨v1, d1⟩ := p1
    simp only [h1] at h
    cases h2 : ReadInt64 d1 with
    | error e' =>
      simp only [h2, Except.error.injEq] at h
      rw [← h, ReadInt64_err_inv h2]; simp
    | ok p2 =>
      obtain ⟨v2, d2⟩ := p2
      simp only [h2] at h
      cases h3 : ReadInt64 d2 with
      | error e' =>
        simp only [h3, Except.error.injEq] at h
        rw [← h, ReadInt64_err_inv h3]; simp
      | ok p3 =>
        obtain ⟨v3, d3⟩ := p3
        simp only [h3] at h
        cases h4 : ReadInt64 d3 with
        | error e' =>
          simp only [h4, Except.error.injEq] at h
          rw [← h, ReadInt64_err_inv h4]; simp
        | ok p4 =>
          obtain ⟨v4, d4⟩ := p4
          simp only [h4] at h
          cases h5 : ReadInt32 d4 with
          | error e' =>
            simp only [h5, Except.error.injEq] at h
            rw [← h, ReadInt32_err_inv h5]; simp
          | ok p5 =>
            obtain ⟨v5, d5⟩ := p5
            simp only [h5] at h
            cases h6 : ReadInt32 d5 with
            | error e' =>
              simp only [h6, Except.error.injEq] at h
              rw [← h, ReadInt32_err_inv h6]; simp
            | ok p6 =>
              obtain ⟨v6, d6⟩ := p6
              simp only [h6] at h
              cases h7 : ReadInt32 d6 with
              | error e' =>
                simp only [h7, Except.error.injEq] at h
                rw [← h, ReadInt32_err_inv h7]; simp
              | ok p7 =>
                obtain ⟨v7, d7⟩ := p7
                simp only [h7] at h
                cases h8 : ReadInt64 d7 with
                | error e' =>
                  simp only [h8, Except.error.injEq] at h
                  rw [← h, ReadInt64_err_inv h8]; simp
                | ok p8 =>
                  obtain ⟨v8, d8⟩ := p8
                  simp only [h8] at h
                  cases h9 : ReadInt64 d8 with
                  | error e' =>
                    simp only [h9, Except.error.injEq] at h
                    rw [← h, ReadInt64_err_inv h9]; simp
                  | ok p9 => simp [h9] at h

theorem ReadInt32_ok_len {d : Decoder} {l : Int} {d1 : Decoder}
    (h : ReadInt32 d = .ok (l, d1)) : d1.bytes.length + 4 ≤ d.bytes.length := by
  obtain ⟨hl, -, hd⟩ := ReadInt32_ok_inv h
  rw [hd]
  simp
  omega

theorem ReadInt64_ok_len {d : Decoder} {l : Int} {d1 : Decoder}
    (h : ReadInt64 d = .ok (l, d1)) : d1.bytes.length + 8 ≤ d.bytes.length := by
  obtain ⟨hl, -, hd⟩ := ReadInt64_ok_inv h
  rw [hd]
  simp
  omega

theorem ReadString_ok_len {d : Decoder} {m : Int} {s : GoStr} {d' : Decoder}
    (h : ReadString d m = .ok (s, d')) : d'.bytes.length + 4 ≤ d.bytes.length := by
  unfold ReadString at h
  cases h32 : ReadInt32 d with
  | error e => simp [h32] at h
  | ok p =>
    obtain ⟨l, d1⟩ := p
    simp only [h32] at h
    by_cases h1 : l < 0
    · rw [if_pos h1] at h; exact absurd h (by simp)
    · rw [if_neg h1] at h
      by_cases h2 : l > m
      · rw [if_pos h2] at h; exact absurd h (by simp)
      · rw [if_neg h2] at h
        cases hr : readN d1 l.toNat with
        | error e => simp [hr] at h
        | ok q =>
          obtain ⟨b, d2⟩ := q
          simp only [hr, Except.ok.injEq, Prod.mk.injEq] at h
          obtain ⟨-, hd⟩ := h
          obtain ⟨-, -, hd2⟩ := readN_ok_inv hr
          have h32l := ReadInt32_ok_len h32
          rw [← hd, hd2]
          simp
          omega

theorem ReadBuffer_ok_len {d : Decoder} {m : Int} {data : Option GoStr} {d' : Decoder}
    (h : ReadBuffer d m = .ok (data, d')) : d'.bytes.length + 4 ≤ d.bytes.length := by
  unfold ReadBuffer at h
  cases h32 : ReadInt32 d with
  | error e => simp [h32] at h
  | ok p =>
    obtain ⟨l, d1⟩ := p
    simp only [h32] at h
    have h32l := ReadInt32_ok_len h32
    by_cases h0 : l = -1
    · rw [if_pos h0] at h
      simp only [Except.ok.injEq, Prod.mk.injEq] at h
      obtain ⟨-, hd⟩ := h
      rw [← hd]
      omega
    · rw [if_neg h0] at h
      by_cases h1 : l < -1
      · rw [if_pos h1] at h; exact absurd h (by simp)
      · rw [if_neg h1] at h
        by_cases h2 : l > m
        · rw [if_pos h2] at h; exact absurd h (by simp)
        · rw [if_neg h2] at h
          cases hr : readN d1 l.toNat with
          | error e => simp [hr] at h
          | ok q =>
            obtain ⟨b, d2⟩ := q
            simp only [hr, Except.ok.injEq, Prod.mk.injEq] at h
            obtain ⟨-, hd⟩ := h
            obtain ⟨-, -, hd2⟩ := readN_ok_inv hr
            rw [← hd, hd2]
            simp
            omega

theorem parseStatPersisted_ok_len {d : Decoder} {s : StatPersisted} {d' : Decoder}
    (h : parseStatPersisted d = .ok (s, d')) : d'.bytes.length ≤ d.bytes.length := by
  unfold parseStatPersisted at h
  cases h1 : ReadInt64 d with
  | error e => simp [h1] at h
  | ok p1 =>
  obtain ⟨v1, d1⟩ := p1
  simp only [h1] at h
  cases h2 : ReadInt64 d1 with
  | error e => simp [h2] at h
  | ok p2 =>
  obtain ⟨v2, d2⟩ := p2
  simp only [h2] at h
  cases h3 : ReadInt64 d2 with
  | error e => simp [h3] at h
  | ok p3 =>
  obtain ⟨v3, d3⟩ := p3
  simp only [h3] at h
  cases h4 : ReadInt64 d3 with
  | error e => simp [h4] at h
  | ok p4 =>
  obtain ⟨v4, d4⟩ := p4
  simp only [h4] at h
  cases h5 : ReadInt32 d4 with
  | error e => simp [h5] at h
  | ok p5 =>
  obtain ⟨v5, d5⟩ := p5
  simp only [h5] at h
  cases h6 : ReadInt32 d5 with
  | error e => simp [h6] at h
  | ok p6 =>
  obtain ⟨v6, d6⟩ := p6
  simp only [h6] at h
  cases h7 : ReadInt32 d6 with
  | error e => simp [h7] at h
  | ok p7 =>
  obtain ⟨v7, d7⟩ := p7
  simp only [h7] at h
  cases h8 : ReadInt64 d7 with
  | error e => simp [h8] at h
  | ok p8 =>
  obtain ⟨v8, d8⟩ := p8
  simp only [h8] at h
  cases h9 : ReadInt64 d8 with
  | error e => simp [h9] at h
  | ok p9 =>
  obtain ⟨v9, d9⟩ := p9
  simp only [h9, Except.ok.injEq, Prod.mk.injEq] at h
  obtain ⟨-, hd⟩ := h
  have l1 := ReadInt64_ok_len h1
  have l2 := ReadInt64_ok_len h2
  have l3 := ReadInt64_ok_len h3
  have l4 := ReadInt64_ok_len h4
  have l5 := ReadInt32_ok_len h5
  have l6 := ReadInt32_ok_len h6
  have l7 := ReadInt32_ok_len h7
  have l8 := ReadInt64_ok_len h8
  have l9 := ReadInt64_ok_len h9
  rw [← hd]
  omega

theorem parseNodesLoop_ne_outOfFuel :
    ∀ (fuel : Nat) (arena : List Node) (byPath : List (GoStr × Nat)) (d : Decoder),
      d.bytes.length < fuel →
      ∀ e, parseNodesLoop fuel arena byPath d = .error e → e ≠ .outOfFuel := by
  intro fuel
  induction fuel with
  | zero =>
    intro arena byPath d hf
    exact absurd hf (Nat.not_lt_zero _)
  | succ f ih =>
    intro arena byPath d hf e h
    cases hRS : ReadString d maxStringLen with
    | error e' =>
      simp only [parseNodesLoop, hRS, Except.error.injEq] at h
      rw [← h]
      exact ReadString_err_ne hRS
    | ok p =>
      obtain ⟨path, d1⟩ := p
      simp only [parseNodesLoop, hRS] at h
      by_cases h47 : path = [47]
      · rw [if_pos h47] at h
        exact absurd h (by simp)
      · rw [if_neg h47] at h
        cases hRB : ReadBuffer d1 maxBufferLen with
        | error e' =>
          simp only [hRB, Except.error.injEq] at h
          rw [← h]
          exact ReadBuffer_err_ne hRB
        | ok pb =>
          obtain ⟨data, d2⟩ := pb
          simp only [hRB] at h
          cases hRI : ReadInt64 d2 with
          | error e' =>
            simp only [hRI, Except.error.injEq] at h
            rw [← h, ReadInt64_err_inv hRI]
            simp
          | ok pi =>
            obtain ⟨a, d3⟩ := pi
            simp only [hRI] at h
            cases hPS : parseStatPersisted d3 with
            | error e' =>
              simp only [hPS, Except.error.injEq] at h
              rw [← h]
              exact parseStatPersisted_err_ne hPS
            | ok ps =>
              obtain ⟨st, d4⟩ := ps
              simp only [hPS] at h
              have hlen : d4.bytes.length < f := by
                have l1 := ReadString_ok_len hRS
                have l2 := ReadBuffer_ok_len hRB
                have l3 := ReadInt64_ok_len hRI
                have l4 := parseStatPersisted_ok_len hPS
                omega
              by_cases hroot : path = []
              · rw [if_pos hroot] at h
                exact ih _ _ _ hlen e h
              · rw [if_neg hroot] at h
                cases hlk : mapLookup (mapInsert byPath path arena.length)
                    (parentOf path) with
                | none =>
                  simp only [hlk, Except.error.injEq] at h
                  rw [← h]
                  simp
                | some pidx =>
                  simp only [hlk] at h
                  exact ih _ _ _ hlen e h

theorem parseHeader_err_ne {d : Decoder} {e : DecodeError}
    (h : parseHeader d = .error e) : e ≠ .outOfFuel := by
  unfold parseHeader at h
  cases h1 : ReadInt32 d with
  | error e' =>
    simp only [h1, Except.error.injEq] at h
    rw [← h, ReadInt32_err_inv h1]; simp
  | ok p1 =>
    obtain ⟨magic, d1⟩ := p1
    simp only [h1] at h
    cases h2 : ReadInt32 d1 with
    | error e' =>
      simp only [h2, Except.error.injEq] at h
      rw [← h, ReadInt32_err_inv h2]; simp
    | ok p2 =>
      obtain ⟨version, d2⟩ := p2
      simp only [h2] at h
      cases h3 : ReadInt64 d2 with
      | error e' =>
        simp only [h3, Except.error.injEq] at h
        rw [← h, ReadInt64_err_inv h3]; simp
      | ok p3 =>
        obtain ⟨dbid, d3⟩ := p3
        simp only [h3] at h
        by_cases hm : magic ≠ snapshotMagic
        · rw [if_pos hm] at h
          injection h with h'
          rw [← h']
          simp
        · rw [if_neg hm] at h
          exact absurd h (by simp)

theorem skipSessions_err_ne : ∀ (n : Nat) (d : Decoder) (e : DecodeError),
    skipSessions n d = .error e → e ≠ .outOfFuel := by
  intro n
  induction n with
  | zero => intro d e h; exact absurd h (by simp [skipSessions])
  | succ n ih =>
    intro d e h
    unfold skipSessions at h
    cases h1 : ReadInt64 d with
    | error e' =>
      simp only [h1, Except.error.injEq] at h
      rw [← h, ReadInt64_err_inv h1]; simp
    | ok p1 =>
      obtain ⟨v1, d1⟩ := p1
      simp only [h1] at h
      cases h2 : ReadInt32 d1 with
      | error e' =>
        simp only [h2, Except.error.injEq] at h
        rw [← h, ReadInt32_err_inv h2]; simp
      | ok p2 =>
        obtain ⟨v2, d2⟩ := p2
        simp only [h2] at h
        exact ih d2 e h

theorem parseSessions_err_ne {d : Decoder} {e : DecodeError}
    (h : parseSessions d = .error e) : e ≠ .outOfFuel := by
  unfold parseSessions at h
  cases h1 : ReadInt32 d with
  | error e' =>
    simp only [h1, Except.error.injEq] at h
    rw [← h, ReadInt32_err_inv h1]; simp
  | ok p1 =>
    obtain ⟨count, d1⟩ := p1
    simp only [h1] at h
    by_cases hc : count < 0
    · rw [if_pos hc] at h
      injection h with h'
      rw [← h']
      simp
    · rw [if_neg hc] at h
      exact skipSessions_err_ne count.toNat d1 e h

theorem parseACLVector_err_ne : ∀ (n : Nat) (acc : List ACL) (d : Decoder)
    (e : DecodeError), parseACLVector n acc d = .error e → e ≠ .outOfFuel := by
  intro n
  induction n with
  | zero => intro acc d e h; exact absurd h (by simp [parseACLVector])
  | succ n ih =>
    intro acc d e h
    unfold parseACLVector at h
    cases h1 : ReadInt32 d with
    | error e' =>
      simp only [h1, Except.error.injEq] at h
      rw [← h, ReadInt32_err_inv h1]; simp
    | ok p1 =>
      obtain ⟨perms, d1⟩ := p1
      simp only [h1] at h
      cases h2 : ReadString d1 maxStringLen with
      | error e' =>
        simp only [h2, Except.error.injEq] at h
        rw [← h]
        exact ReadString_err_ne h2
      | ok p2 =>
        obtain ⟨scheme, d2⟩ := p2
        simp only [h2] at h
        cases h3 : ReadString d2 maxStringLen with
        | error e' =>
          simp only [h3, Except.error.injEq] at h
          rw [← h]
          exact ReadString_err_ne h3
        | ok p3 =>
          obtain ⟨aid, d3⟩ := p3
          simp only [h3] at h
          exact ih _ d3 e h

theorem parseACLEntries_err_ne : ∀ (n : Nat) (acc : List (Int × List ACL))
    (d : Decoder) (e : DecodeError),
    parseACLEntries n acc d = .error e → e ≠ .outOfFuel := by
  intro n
  induction n with
  | zero => intro acc d e h; exact absurd h (by simp [parseACLEntries])
  | succ n ih =>
    intro acc d e h
    unfold parseACLEntries at h
    cases h1 : ReadInt64 d with
    | error e' =>
      simp only [h1, Except.error.injEq] at h
      rw [← h, ReadInt64_err_inv h1]; simp
    | ok p1 =>
      obtain ⟨ref, d1⟩ := p1
      simp only [h1] at h
      cases h2 : ReadInt32 d1 with
      | error e' =>
        simp only [h2, Except.error.injEq] at h
        rw [← h, ReadInt32_err_inv h2]; simp
      | ok p2 =>
        obtain ⟨vecLen, d2⟩ := p2
        simp only [h2] at h
        by_cases hv : vecLen < 0
        · rw [if_pos hv] at h
          injection h with h'
          rw [← h']
          simp
        · rw [if_neg hv] at h
          cases h3 : parseACLVector vecLen.toNat [] d2 with
          | error e' =>
            simp only [h3, Except.error.injEq] at h
            rw [← h]
            exact parseACLVector_err_ne _ _ _ _ h3
          | ok p3 =>
            obtain ⟨list, d3⟩ := p3
            simp only [h3] at h
            exact ih _ d3 e h

theorem parseACLCache_err_ne {d : Decoder} {e : DecodeError}
    (h : parseACLCache d = .error e) : e ≠ .outOfFuel := by
  unfold parseACLCache at h
  cases h1 : ReadInt32 d with
  | error e' =>
    simp only [h1, Except.error.injEq] at h
    rw [← h, ReadInt32_err_inv h1]; simp
  | ok p1 =>
    obtain ⟨count, d1⟩ := p1
    simp only [h1] at h
    by_cases hc : count < 0
    · rw [if_pos hc] at h
      injection h with h'
      rw [← h']
      simp
    · rw [if_neg hc] at h
      exact parseACLEntries_err_ne _ _ _ _ h

theorem parseNodes_err_ne {d : Decoder} {header : Header}
    {acls : List (Int × List ACL)} {e : DecodeError}
    (h : parseNodes d header acls = .error e) : e ≠ .outOfFuel := by
  unfold parseNodes at h
  cases h1 : parseNodesLoop (d.bytes.length + 1) [] [] d with
  | error e' =>
    simp only [h1, Except.error.injEq] at h
    rw [← h]
    exact parseNodesLoop_ne_outOfFuel _ _ _ _ (Nat.lt_succ_self _) e' h1
  | ok p1 =>
    obtain ⟨arena, byPath, d1⟩ := p1
    simp only [h1] at h
    cases h2 : mapLookup byPath [] with
    | none =>
      simp only [h2, Except.error.injEq] at h
      rw [← h]
      simp
    | some r =>
      simp only [h2] at h
      exact absurd h (by simp)

theorem parseTrailer_err_ne {t : Tree} {d : Decoder} {e : DecodeError}
    (h : parseTrailer t d = .error e) : e ≠ .outOfFuel := by
  unfold parseTrailer at h
  cases h1 : ReadInt64 d with
  | error e' => simp [h1] at h
  | ok p1 =>
    obtain ⟨c, d1⟩ := p1
    simp only [h1] at h
    cases h2 : ReadString d1 maxStringLen with
    | error e' =>
      simp only [h2, Except.error.injEq] at h
      rw [← h]
      exact ReadString_err_ne h2
    | ok p2 => simp [h2] at h

/-- The fuel artifact never surfaces: `ParseFile` cannot return the
`outOfFuel` error, because the fuel passed to the node loop exceeds the
number of bytes and every loop iteration consumes at least four bytes. -/
theorem ParseFile_ne_outOfFuel (bs : List Nat) :
    ParseFile bs ≠ .error .outOfFuel := by
  intro h
  unfold ParseFile at h
  cases h1 : parseHeader (newDecoder bs) with
  | error e =>
    simp only [h1, Except.error.injEq] at h
    exact parseHeader_err_ne h1 h
  | ok p1 =>
    obtain ⟨header, d1⟩ := p1
    simp only [h1] at h
    cases h2 : parseSessions d1 with
    | error e =>
      simp only [h2, Except.error.injEq] at h
      exact parseSessions_err_ne h2 h
    | ok d2 =>
      simp only [h2] at h
      cases h3 : parseACLCache d2 with
      | error e =>
        simp only [h3, Except.error.injEq] at h
        exact parseACLCache_err_ne h3 h
      | ok p3 =>
        obtain ⟨acls, d3⟩ := p3
        simp only [h3] at h
        cases h4 : parseNodes d3 header acls with
        | error e =>
          simp only [h4, Except.error.injEq] at h
          exact parseNodes_err_ne h4 h
        | ok p4 =>
          obtain ⟨tree, d4⟩ := p4
          simp only [h4] at h
          exact parseTrailer_err_ne h rfl

/-- The concrete four-record scenario from the specification: paths
"", "/a", "/a/b", "/c". -/
def demo4Recs : List NodeRec :=
  [⟨[], none, -1, statD⟩, ⟨[47, 97], some [123], 1, statD⟩,
   ⟨[47, 97, 47, 98], some [99], 1, statD⟩, ⟨[47, 99], some [112], -1, statD⟩]

/-- Witness for C2 at the specification's four-record scenario. -/
theorem c2_wellformed_stream_witness :
    WellFormed demo4Recs ∧
    ∃ t d',
      parseNodes ⟨encodeRecords demo4Recs ++ sentinelBytes ++ [], 0⟩
        ⟨snapshotMagic, 0, 0⟩ [] = .ok (t, d') ∧
      t.arena.length = demo4Recs.length ∧
      (∀ k, Reaches t.arena t.rootIdx k ↔ k < demo4Recs.length) ∧
      (∀ k, k < demo4Recs.length → k ≠ t.rootIdx →
        ∃ j, j < demo4Recs.length ∧ (t.arena.getD k nodeD).parent = some j ∧
          List.count k ((t.arena.getD j nodeD).children) = 1 ∧
          parentOf ((t.arena.getD k nodeD).path) = (t.arena.getD j nodeD).path) :=
  ⟨by decide, c2_wellformed_stream demo4Recs (by decide) ⟨snapshotMagic, 0, 0⟩ [] 0 []⟩

/-- Witness for C9's general part: one duplicate-path step of the loop
on a concrete state. -/
theorem c9_duplicate_paths_witness :
    parseNodesLoop 1
      [⟨[47], [], none, -1, statD, none, [1]⟩, ⟨[97], [47, 97], some [1], -1, statD, some 0, []⟩]
      [([47, 97], 1), ([], 0)]
      ⟨encodeRecord (dupRecA 2) ++ sentinelBytes, 0⟩ =
      parseNodesLoop 0
        (setParent (appendChild
          ([⟨[47], [], none, -1, statD, none, [1]⟩,
            ⟨[97], [47, 97], some [1], -1, statD, some 0, []⟩] ++
           [⟨[97], [47, 97], some [2], -1, statD, none, []⟩]) 0 2) 2 0)
        (mapInsert [([47, 97], 1), ([], 0)] [47, 97] 2)
        ⟨sentinelBytes, 79⟩ ∧
    mapLookup (mapInsert [([47, 97], 1), ([], 0)] [47, 97] 2) [47, 97] = some 2 := by
  have h := c9_duplicate_paths.1 0
    [⟨[47], [], none, -1, statD, none, [1]⟩, ⟨[97], [47, 97], some [1], -1, statD, some 0, []⟩]
    [([47, 97], 1), ([], 0)]
    ⟨encodeRecord (dupRecA 2) ++ sentinelBytes, 0⟩
    ⟨encodeBuffer (some [2]) ++ encodeInt64 (-1) ++ encodeStat statD ++ sentinelBytes, 6⟩
    ⟨encodeInt64 (-1) ++ encodeStat statD ++ sentinelBytes, 11⟩
    ⟨encodeStat statD ++ sentinelBytes, 19⟩ ⟨sentinelBytes, 79⟩
    [47, 97] (some [2]) (-1) statD 1 0
    (by rfl) (by decide) (by decide) (by rfl) (by rfl) (by rfl) (by rfl) (by rfl)
  exact h

end Zoox
